import Mathlib

/-!
Verification of the probabilistic (qutrit) tic-tac-toe engine.

The engine's TypeScript sources are shallowly embedded here:
* `WinDetector.ts`  — `getLines`, `checkLineWinner`, `detectWinner`
* `GameState.ts`    — `createGame`, move validation, `makeMove`
* `Collapse.ts`     — `collapseBoard` (the random draw is passed as an
  explicit stream of rationals, one per cell, replacing `Math.random()`)
* `OutcomeCalculator.ts` — `getCellOptions`, `outcomeKey`, the binary
  max-heap, and `calculateTopOutcomes`

JavaScript floating-point numbers are modelled as exact rationals (ℚ);
array indexing `a[i]` is modelled with `List.getD`/`List.get?` (the code
only indexes in bounds, which the validation functions guarantee).
-/

namespace QT

inductive Player where
  | X
  | O
deriving DecidableEq

inductive CellState where
  | X
  | O
  | empty
deriving DecidableEq

inductive GamePhase where
  | setup
  | playing
  | ready_to_collapse
  | collapsed
deriving DecidableEq

inductive GameMode where
  | pvp
  | pva
deriving DecidableEq

inductive Verdict where
  | X
  | O
  | draw
deriving DecidableEq

/-- The per-cell probability distribution (`QutritState` in `types.ts`). -/
structure QutritState where
  probEmpty : ℚ
  probO : ℚ
  probX : ℚ
deriving DecidableEq

structure Allocation where
  square : ℤ
  prob : ℚ
deriving DecidableEq

inductive Move where
  | classical (player : Player) (square : ℤ)
  | split (player : Player) (allocations : List Allocation)
deriving DecidableEq

def Move.player : Move → Player
  | Move.classical p _ => p
  | Move.split p _ => p

/-- `GameState` from `types.ts`.  The `winner` field's TS type
`Player | 'draw' | null` is modelled as `Option Verdict` (the engine in
fact never stores `null`, see the win-detector theorems). -/
structure GameState where
  id : String
  board : List QutritState
  size : ℕ
  currentPlayer : Player
  movesPlayed : ℕ
  totalMoves : ℕ
  gamePhase : GamePhase
  moves : List Move
  gameMode : GameMode
  aiPlayer : Option Player
  collapsedBoard : Option (List CellState) := none
  winner : Option Verdict := none
deriving DecidableEq

def EPSILON : ℚ := 1 / 1000

/-! ### WinDetector.ts -/

/-- All straight lines: every row, every column, the main diagonal and the
anti-diagonal, exactly in the order `getLines` builds them. -/
def getLines (size : ℕ) : List (List ℕ) :=
  ((List.range size).map fun row => (List.range size).map fun col => row * size + col)
    ++ ((List.range size).map fun col => (List.range size).map fun row => row * size + col)
    ++ [(List.range size).map fun i => i * size + i]
    ++ [(List.range size).map fun i => i * size + (size - 1 - i)]

def cellPlayer : CellState → Option Player
  | CellState.X => some Player.X
  | CellState.O => some Player.O
  | CellState.empty => none

/-- `checkLineWinner`.  Out-of-range accesses (`undefined` in JS) make the
function report no winner, which is collapsed with the `null` result. -/
def checkLineWinner (board : List CellState) (line : List ℕ) : Option Player :=
  match line with
  | [] => none
  | i0 :: rest =>
    match board[i0]? with
    | none => none
    | some first =>
      if first = CellState.empty then none
      else if rest.all fun i => decide (board[i]? = some first) then cellPlayer first
      else none

/-- `detectWinner`: scan all lines setting the `xWins`/`oWins` flags, then
classify.  The TS return type is `Player | 'draw' | null`, modelled as
`Option Verdict`. -/
def detectWinner (board : List CellState) (size : ℕ) : Option Verdict :=
  let lines := getLines size
  let flags := lines.foldl
    (fun (fl : Bool × Bool) line =>
      match checkLineWinner board line with
      | some Player.X => (true, fl.2)
      | some Player.O => (fl.1, true)
      | none => fl)
    (false, false)
  if flags.1 && flags.2 then some Verdict.draw
  else if flags.1 then some Verdict.X
  else if flags.2 then some Verdict.O
  else some Verdict.draw

/-! ### GameState.ts -/

def createInitialBoard (size : ℕ) : List QutritState :=
  List.replicate (size * size) { probEmpty := 1, probO := 0, probX := 0 }

/-- `createGame` (the `uuid` session id carries no game information and is
modelled by a fixed string). -/
def createGame (size : ℕ) (gameMode : GameMode) (aiPlayer : Option Player) : GameState :=
  { id := "game"
    board := createInitialBoard size
    size := size
    currentPlayer := Player.X
    movesPlayed := 0
    totalMoves := size * size
    gamePhase := GamePhase.playing
    moves := []
    gameMode := gameMode
    aiPlayer := aiPlayer }

def dummyCell : QutritState := { probEmpty := 0, probO := 0, probX := 0 }

/-- JS `board[square]`; the callers only index in bounds (guaranteed by
`validateSquareIndex` together with `board.length = size * size`). -/
def boardCell (board : List QutritState) (square : ℤ) : QutritState :=
  board.getD square.toNat dummyCell

def validateSquareIndex (square : ℤ) (size : ℕ) : Except String Unit :=
  if square < 0 ∨ (size * size : ℤ) ≤ square then
    Except.error "Invalid square index."
  else Except.ok ()

def validateClassicalMove (game : GameState) (square : ℤ) : Except String Unit :=
  match validateSquareIndex square game.size with
  | Except.error e => Except.error e
  | Except.ok _ =>
    if (boardCell game.board square).probEmpty < 1 - EPSILON then
      Except.error "Classical move requires an entirely empty cell."
    else Except.ok ()

/-- The duplicate/range scan over the allocations (the `squares : Set`
loop in `validateSplitMove`). -/
def checkDuplicateSquares (allocations : List Allocation) (size : ℕ) (seen : List ℤ) :
    Except String Unit :=
  match allocations with
  | [] => Except.ok ()
  | a :: rest =>
    match validateSquareIndex a.square size with
    | Except.error e => Except.error e
    | Except.ok _ =>
      if a.square ∈ seen then Except.error "Duplicate square in split move."
      else checkDuplicateSquares rest size (a.square :: seen)

/-- `const totalProb = move.allocations.reduce((sum, a) => sum + a.prob, 0)`. -/
def splitTotal (allocations : List Allocation) : ℚ :=
  allocations.foldl (fun sum a => sum + a.prob) 0

def validateSplitMove (game : GameState) (allocations : List Allocation) :
    Except String Unit :=
  if allocations.length < 2 then
    Except.error "Split move requires at least 2 target squares."
  else
    match checkDuplicateSquares allocations game.size [] with
    | Except.error e => Except.error e
    | Except.ok _ =>
      if |splitTotal allocations - 1| > EPSILON then
        Except.error "Split move probabilities must sum to 1."
      else if allocations.any fun a => decide (a.prob < -EPSILON) then
        Except.error "Split move probability must be non-negative."
      else if allocations.any fun a =>
          decide ((boardCell game.board a.square).probEmpty + EPSILON < a.prob) then
        Except.error "Split amount exceeds available empty probability."
      else Except.ok ()

/-- Effect of an accepted classical move on the board. -/
def applyClassical (board : List QutritState) (player : Player) (square : ℤ) :
    List QutritState :=
  let cell := boardCell board square
  let cell :=
    if player = Player.X then { cell with probX := 1 } else { cell with probO := 1 }
  board.set square.toNat { cell with probEmpty := 0 }

/-- Effect of one allocation of a split move on its target cell: add the
amount to the mover's mark, subtract it from the empty slot, then clamp
all three components exactly as the source does. -/
def updateCell (cell : QutritState) (player : Player) (prob : ℚ) : QutritState :=
  let cell :=
    if player = Player.X then { cell with probX := cell.probX + prob }
    else { cell with probO := cell.probO + prob }
  let cell := { cell with probEmpty := cell.probEmpty - prob }
  { cell with
    probEmpty := max 0 cell.probEmpty
    probX := min 1 (max 0 cell.probX)
    probO := min 1 (max 0 cell.probO) }

/-- Effect of one allocation of an accepted split move. -/
def applyAllocation (board : List QutritState) (player : Player) (a : Allocation) :
    List QutritState :=
  board.set a.square.toNat (updateCell (boardCell board a.square) player a.prob)

def applySplit (board : List QutritState) (player : Player)
    (allocations : List Allocation) : List QutritState :=
  allocations.foldl (fun b a => applyAllocation b player a) board

/-- The bookkeeping shared by both accepted move kinds: append the move to
the history, bump the move count, flip the turn, and advance the phase
once the move count reaches the total. -/
def finishMove (game : GameState) (move : Move) (newBoard : List QutritState) : GameState :=
  { game with
    board := newBoard
    moves := game.moves ++ [move]
    movesPlayed := game.movesPlayed + 1
    currentPlayer :=
      if game.currentPlayer = Player.X then Player.O else Player.X
    gamePhase :=
      if game.totalMoves ≤ game.movesPlayed + 1 then GamePhase.ready_to_collapse
      else game.gamePhase }

/-- `makeMove`: the TS function deep-clones the session, validates against
the clone (value-equal to the input) and only returns the mutated clone on
success; embedded as a pure `Except`-returning function. -/
def makeMove (game : GameState) (move : Move) : Except String GameState :=
  if game.gamePhase ≠ GamePhase.playing then
    Except.error "Cannot make a move outside the playing phase."
  else if move.player ≠ game.currentPlayer then
    Except.error "Out of turn."
  else
    match move with
    | Move.classical player square =>
      match validateClassicalMove game square with
      | Except.error e => Except.error e
      | Except.ok _ =>
        Except.ok (finishMove game move (applyClassical game.board player square))
    | Move.split player allocations =>
      match validateSplitMove game allocations with
      | Except.error e => Except.error e
      | Except.ok _ =>
        Except.ok (finishMove game move (applySplit game.board player allocations))

/-! ### Collapse.ts -/

/-- The body of the per-cell sampling loop of `collapseBoard`; `rand` is
the cell's `Math.random()` draw. -/
def collapseCell (cell : QutritState) (rand : ℚ) : CellState :=
  let effectiveProbEmpty := if cell.probEmpty < EPSILON then 0 else cell.probEmpty
  let totalNonEmpty := cell.probX + cell.probO
  let pair :=
    if effectiveProbEmpty < EPSILON ∧ EPSILON < totalNonEmpty then
      (cell.probX / totalNonEmpty, cell.probO / totalNonEmpty)
    else (cell.probX, cell.probO)
  if rand < pair.1 then CellState.X
  else if rand < pair.1 + pair.2 then CellState.O
  else CellState.empty

/-- `collapseBoard`; `randStream i` is the `Math.random()` draw consumed
for cell `i`. -/
def collapseBoard (game : GameState) (randStream : ℕ → ℚ) : Except String GameState :=
  if game.gamePhase ≠ GamePhase.ready_to_collapse then
    Except.error "Cannot collapse board outside the ready_to_collapse phase."
  else
    let collapsedBoard := game.board.enum.map fun p => collapseCell p.2 (randStream p.1)
    let winner := detectWinner collapsedBoard game.size
    Except.ok
      { game with
        gamePhase := GamePhase.collapsed
        collapsedBoard := some collapsedBoard
        winner := winner }

/-! ### OutcomeCalculator.ts -/

structure CellOption where
  state : CellState
  probability : ℚ
deriving DecidableEq

def dummyOption : CellOption := { state := CellState.empty, probability := 0 }

/-- The three conditional pushes of `getCellOptions`. -/
def rawCellOptions (cell : QutritState) : List CellOption :=
  (if EPSILON < cell.probX then [{ state := CellState.X, probability := cell.probX }] else [])
    ++ (if EPSILON < cell.probO then [{ state := CellState.O, probability := cell.probO }] else [])
    ++ (if EPSILON < cell.probEmpty then [{ state := CellState.empty, probability := cell.probEmpty }] else [])

/-- The `options.length === 0` fallback of `getCellOptions`: normalize and
pick the highest state with probability `1.0`. -/
def fallbackOptions (cell : QutritState) : List CellOption :=
  if 0 < cell.probX + cell.probO + cell.probEmpty then
    if cell.probO ≤ cell.probX ∧ cell.probEmpty ≤ cell.probX then
      [{ state := CellState.X, probability := 1 }]
    else if cell.probX ≤ cell.probO ∧ cell.probEmpty ≤ cell.probO then
      [{ state := CellState.O, probability := 1 }]
    else [{ state := CellState.empty, probability := 1 }]
  else [{ state := CellState.empty, probability := 1 }]

/-- `getCellOptions`: candidate resolved states of one cell, sorted by
probability descending (a stable comparator sort, as JS `Array.sort`). -/
def getCellOptions (cell : QutritState) : List CellOption :=
  (if (rawCellOptions cell).isEmpty then fallbackOptions cell
   else rawCellOptions cell).mergeSort fun a b => decide (b.probability ≤ a.probability)

def cellStateString : CellState → String
  | CellState.X => "X"
  | CellState.O => "O"
  | CellState.empty => "empty"

/-- `outcomeKey`: `board.join(',')`. -/
def outcomeKey (board : List CellState) : String :=
  String.intercalate "," (board.map cellStateString)

structure HeapEntry where
  board : List CellState
  probability : ℚ
  indices : List ℕ
deriving DecidableEq

def dummyEntry : HeapEntry := { board := [], probability := 0, indices := [] }

/-- Swap two positions of the backing array of the heap. -/
def listSwap {α : Type} (l : List α) (i j : ℕ) : List α :=
  match l.get? i, l.get? j with
  | some a, some b => (l.set i b).set j a
  | _, _ => l

/-- The `bubbleUp` sift loop.  The index strictly decreases on every
iteration, so starting fuel `i` makes the fuelled recursion exhaustive. -/
def bubbleUpGo (fuel : ℕ) (l : List HeapEntry) (i : ℕ) : List HeapEntry :=
  match fuel, i with
  | 0, _ => l
  | _, 0 => l
  | fuel + 1, i + 1 =>
    let parent := i / 2
    if (l.getD parent dummyEntry).probability < (l.getD (i + 1) dummyEntry).probability then
      bubbleUpGo fuel (listSwap l (i + 1) parent) parent
    else l

def bubbleUp (l : List HeapEntry) (i : ℕ) : List HeapEntry := bubbleUpGo i l i

/-- `largest` after the two comparisons of one `sinkDown` iteration. -/
def sinkLargest (l : List HeapEntry) (i : ℕ) : ℕ :=
  let n := l.length
  let left := 2 * i + 1
  let right := 2 * i + 2
  let largest :=
    if left < n ∧ (l.getD i dummyEntry).probability < (l.getD left dummyEntry).probability then
      left
    else i
  if right < n ∧ (l.getD largest dummyEntry).probability < (l.getD right dummyEntry).probability then
    right
  else largest

/-- The `sinkDown` sift loop.  The index strictly increases while staying
below the (fixed) length, so fuel `l.length` is exhaustive. -/
def sinkDownGo (fuel : ℕ) (l : List HeapEntry) (i : ℕ) : List HeapEntry :=
  match fuel with
  | 0 => l
  | fuel + 1 =>
    let largest := sinkLargest l i
    if largest ≠ i then sinkDownGo fuel (listSwap l i largest) largest
    else l

def sinkDown (l : List HeapEntry) (i : ℕ) : List HeapEntry := sinkDownGo l.length l i

/-- The probability max-heap of `OutcomeCalculator.ts`. -/
structure MaxHeap where
  entries : List HeapEntry
deriving DecidableEq

def MaxHeap.push (h : MaxHeap) (e : HeapEntry) : MaxHeap :=
  ⟨bubbleUp (h.entries ++ [e]) h.entries.length⟩

def MaxHeap.pop (h : MaxHeap) : Option (HeapEntry × MaxHeap) :=
  match h.entries with
  | [] => none
  | top :: rest =>
    match rest with
    | [] => some (top, ⟨[]⟩)
    | b :: bs =>
      let last := (b :: bs).getLast (List.cons_ne_nil b bs)
      some (top, ⟨sinkDown (last :: (b :: bs).dropLast) 0⟩)

structure GameOutcome where
  board : List CellState
  probability : ℚ
  winner : Option Verdict
deriving DecidableEq

def NEGLIGIBLE : ℚ := 1 / 1000000000000

/-- `newIndices.map((idx, ci) => cellOptions[ci][idx].state)`; the index
vector always carries one entry per cell. -/
def boardOfIndices (cellOptions : List (List CellOption)) (indices : List ℕ) :
    List CellState :=
  List.zipWith (fun opts idx => (opts.getD idx dummyOption).state) cellOptions indices

/-- `indices.reduce((prob, idx, ci) => prob * cellOptions[ci][idx].probability, 1.0)`. -/
def probOfIndices (cellOptions : List (List CellOption)) (indices : List ℕ) : ℚ :=
  (List.zipWith (fun opts idx => (opts.getD idx dummyOption).probability)
    cellOptions indices).foldl (fun prob p => prob * p) 1

/-- The successor-generation loop: for each cell, advance that cell's
choice rank by one, skipping already-visited outcome keys. -/
def pushSuccessors (cellOptions : List (List CellOption)) (current : HeapEntry) :
    List ℕ → MaxHeap → List String → MaxHeap × List String
  | [], heap, visited => (heap, visited)
  | ci :: rest, heap, visited =>
    let nextOptionIdx := current.indices.getD ci 0 + 1
    if nextOptionIdx < (cellOptions.getD ci []).length then
      let newIndices := current.indices.set ci nextOptionIdx
      let newBoard := boardOfIndices cellOptions newIndices
      let key := outcomeKey newBoard
      if key ∈ visited then pushSuccessors cellOptions current rest heap visited
      else
        pushSuccessors cellOptions current rest
          (heap.push
            { board := newBoard
              probability := probOfIndices cellOptions newIndices
              indices := newIndices })
          (key :: visited)
    else pushSuccessors cellOptions current rest heap visited

/-- The main `while (heap.size > 0 && results.length < maxOutcomes)` loop;
the fuel is the number of results still allowed, which decreases by one per
emission exactly as `results.length` grows. -/
def topLoop (cellOptions : List (List CellOption)) (size : ℕ) (numCells : ℕ) :
    MaxHeap → List String → ℕ → List GameOutcome
  | _, _, 0 => []
  | heap, visited, fuel + 1 =>
    match heap.pop with
    | none => []
    | some (current, heap') =>
      if current.probability < NEGLIGIBLE then []
      else
        let winner := detectWinner current.board size
        let next := pushSuccessors cellOptions current (List.range numCells) heap' visited
        { board := current.board, probability := current.probability, winner := winner }
          :: topLoop cellOptions size numCells next.1 next.2 fuel

/-- `calculateTopOutcomes`. -/
def calculateTopOutcomes (game : GameState) (maxOutcomes : ℕ) : List GameOutcome :=
  let numCells := game.board.length
  let cellOptions := game.board.map getCellOptions
  let initialIndices : List ℕ := List.replicate numCells 0
  let initialBoard := boardOfIndices cellOptions initialIndices
  let initialProbability := probOfIndices cellOptions initialIndices
  let initKey := outcomeKey initialBoard
  let heap := MaxHeap.push ⟨[]⟩
    { board := initialBoard, probability := initialProbability, indices := initialIndices }
  let results := topLoop cellOptions game.size numCells heap [initKey] maxOutcomes
  results.mergeSort fun a b => decide (b.probability ≤ a.probability)

end QT

namespace QT

/-! ### Win detector: correctness (C5, C9) -/

def playerCell : Player → CellState
  | Player.X => CellState.X
  | Player.O => CellState.O

/-- A line is complete for a mark when it is nonempty and every one of its
cells carries exactly that mark (so a line with an empty or out-of-range
cell is complete for no one). -/
def LineComplete (board : List CellState) (line : List ℕ) (p : Player) : Prop :=
  line ≠ [] ∧ ∀ i ∈ line, board[i]? = some (playerCell p)

lemma length_getLines (size : ℕ) : (getLines size).length = 2 * size + 2 := by
  simp [getLines]
  ring

lemma playerCell_ne_empty (p : Player) : playerCell p ≠ CellState.empty := by
  cases p <;> simp [playerCell]

lemma cellPlayer_playerCell (p : Player) : cellPlayer (playerCell p) = some p := by
  cases p <;> rfl

lemma checkLineWinner_eq_some (board : List CellState) (line : List ℕ) (p : Player) :
    checkLineWinner board line = some p ↔ LineComplete board line p := by
  cases line with
  | nil => simp [checkLineWinner, LineComplete]
  | cons i0 rest =>
    simp only [checkLineWinner, LineComplete]
    split
    · -- board[i0]? = undefined
      rename_i h0
      constructor
      · intro h; cases h
      · rintro ⟨-, hall⟩
        exact absurd (hall i0 (by simp)) (by simp [h0])
    · rename_i first h0
      by_cases hf : first = CellState.empty
      · subst hf
        rw [if_pos rfl]
        constructor
        · intro h; cases h
        · rintro ⟨-, hall⟩
          have h1 := hall i0 (by simp)
          rw [h0] at h1
          exact absurd (Option.some_injective _ h1).symm (playerCell_ne_empty p)
      · rw [if_neg hf]
        by_cases hall : (rest.all fun i => decide (board[i]? = some first)) = true
        · rw [if_pos hall]
          simp only [List.all_eq_true, decide_eq_true_eq] at hall
          constructor
          · intro h
            have hfp : first = playerCell p := by
              cases first <;> cases p <;> simp_all [cellPlayer, playerCell]
            refine ⟨by simp, ?_⟩
            intro i hi
            rcases List.mem_cons.mp hi with rfl | hi
            · rw [h0, hfp]
            · rw [hall i hi, hfp]
          · rintro ⟨-, hcomp⟩
            have h1 := hcomp i0 (by simp)
            rw [h0] at h1
            have hfp : first = playerCell p := Option.some_injective _ h1
            rw [hfp, cellPlayer_playerCell]
        · rw [if_neg hall]
          simp only [List.all_eq_true, decide_eq_true_eq] at hall
          constructor
          · intro h; cases h
          · rintro ⟨-, hcomp⟩
            have h1 := hcomp i0 (by simp)
            rw [h0] at h1
            have hfp : first = playerCell p := Option.some_injective _ h1
            refine absurd (fun i hi => ?_) hall
            rw [hcomp i (List.mem_cons_of_mem _ hi), hfp]

lemma detect_flags (board : List CellState) (lines : List (List ℕ)) (init : Bool × Bool) :
    lines.foldl
      (fun (fl : Bool × Bool) line =>
        match checkLineWinner board line with
        | some Player.X => (true, fl.2)
        | some Player.O => (fl.1, true)
        | none => fl)
      init =
    (init.1 || lines.any fun l => decide (checkLineWinner board l = some Player.X),
     init.2 || lines.any fun l => decide (checkLineWinner board l = some Player.O)) := by
  induction lines generalizing init with
  | nil => simp
  | cons l ls ih =>
    simp only [List.foldl_cons, List.any_cons]
    rw [ih]
    cases h : checkLineWinner board l with
    | none => simp [h]
    | some pl => cases pl <;> simp [h, Bool.or_assoc]

/-- `detectWinner` as a function of the two existence flags. -/
lemma detectWinner_eq (board : List CellState) (size : ℕ) :
    detectWinner board size =
      (let xW := (getLines size).any fun l => decide (checkLineWinner board l = some Player.X)
       let oW := (getLines size).any fun l => decide (checkLineWinner board l = some Player.O)
       if xW && oW then some Verdict.draw
       else if xW then some Verdict.X
       else if oW then some Verdict.O
       else some Verdict.draw) := by
  simp only [detectWinner]
  rw [detect_flags]
  simp

end QT

namespace QT

/-- There is a complete line for `p` among the enumerated lines. -/
def HasWinLine (board : List CellState) (size : ℕ) (p : Player) : Prop :=
  ∃ l ∈ getLines size, LineComplete board l p

lemma any_line_iff (board : List CellState) (size : ℕ) (p : Player) :
    ((getLines size).any fun l => decide (checkLineWinner board l = some p)) = true ↔
      HasWinLine board size p := by
  simp only [List.any_eq_true, decide_eq_true_eq, HasWinLine]
  constructor
  · rintro ⟨l, hl, h⟩
    exact ⟨l, hl, (checkLineWinner_eq_some board l p).mp h⟩
  · rintro ⟨l, hl, h⟩
    exact ⟨l, hl, (checkLineWinner_eq_some board l p).mpr h⟩

/-- C5: `detectWinner` enumerates exactly the `2·side+2` straight lines
(all rows, all columns, both diagonals, which is what `getLines` builds),
and classifies: `X` iff a complete `X` line exists and no complete `O`
line, `O` in the symmetric case, `draw` iff lines are complete for both
marks or for neither.  A line containing an empty (or out-of-range) cell
is complete for no one by definition of `LineComplete`. -/
theorem detectWinner_classification (size : ℕ) (board : List CellState) :
    (getLines size).length = 2 * size + 2 ∧
    (detectWinner board size = some Verdict.X ↔
      (HasWinLine board size Player.X ∧ ¬ HasWinLine board size Player.O)) ∧
    (detectWinner board size = some Verdict.O ↔
      (¬ HasWinLine board size Player.X ∧ HasWinLine board size Player.O)) ∧
    (detectWinner board size = some Verdict.draw ↔
      ((HasWinLine board size Player.X ∧ HasWinLine board size Player.O) ∨
        (¬ HasWinLine board size Player.X ∧ ¬ HasWinLine board size Player.O))) := by
  refine ⟨length_getLines size, ?_⟩
  rw [detectWinner_eq]
  simp only
  by_cases hx :
      ((getLines size).any fun l => decide (checkLineWinner board l = some Player.X)) = true <;>
    by_cases ho :
      ((getLines size).any fun l => decide (checkLineWinner board l = some Player.O)) = true <;>
    rw [← any_line_iff board size Player.X, ← any_line_iff board size Player.O] <;>
    simp [hx, ho]

/-- C9: `detectWinner` is total and never returns the `null` of its
declared TS return type: on every board and side it produces `X`, `O`, or
`draw`. -/
theorem detectWinner_never_null (board : List CellState) (size : ℕ) :
    ∃ v : Verdict, detectWinner board size = some v := by
  rw [detectWinner_eq]
  simp only
  split_ifs <;> exact ⟨_, rfl⟩

end QT

namespace QT

/-! ### Move engine: validation inversion lemmas -/

lemma validateSquareIndex_ok {square : ℤ} {size : ℕ}
    (h : validateSquareIndex square size = Except.ok ()) :
    0 ≤ square ∧ square < (size * size : ℤ) := by
  unfold validateSquareIndex at h
  split_ifs at h with h1
  push_neg at h1
  exact ⟨h1.1, h1.2⟩

lemma validateClassicalMove_ok {game : GameState} {square : ℤ}
    (h : validateClassicalMove game square = Except.ok ()) :
    0 ≤ square ∧ square < (game.size * game.size : ℤ) ∧
      1 - EPSILON ≤ (boardCell game.board square).probEmpty := by
  unfold validateClassicalMove at h
  rcases hv : validateSquareIndex square game.size with e | u
  · rw [hv] at h; cases h
  · rw [hv] at h
    obtain ⟨h1, h2⟩ := validateSquareIndex_ok hv
    split_ifs at h with h3
    push_neg at h3
    exact ⟨h1, h2, h3⟩

lemma checkDuplicateSquares_ok {allocations : List Allocation} {size : ℕ} {seen : List ℤ}
    (h : checkDuplicateSquares allocations size seen = Except.ok ()) :
    (∀ a ∈ allocations, 0 ≤ a.square ∧ a.square < (size * size : ℤ) ∧ a.square ∉ seen) ∧
      (allocations.map Allocation.square).Nodup := by
  induction allocations generalizing seen with
  | nil => simp
  | cons a rest ih =>
    unfold checkDuplicateSquares at h
    rcases hv : validateSquareIndex a.square size with e | u
    · rw [hv] at h; cases h
    · rw [hv] at h
      split_ifs at h with hdup
      obtain ⟨hrest, hnd⟩ := ih h
      obtain ⟨h1, h2⟩ := validateSquareIndex_ok hv
      refine ⟨?_, ?_⟩
      · intro b hb
        rcases List.mem_cons.mp hb with rfl | hb
        · exact ⟨h1, h2, hdup⟩
        · obtain ⟨hb1, hb2, hb3⟩ := hrest b hb
          exact ⟨hb1, hb2, fun hmem => hb3 (List.mem_cons_of_mem _ hmem)⟩
      · rw [List.map_cons, List.nodup_cons]
        refine ⟨?_, hnd⟩
        intro hmem
        rcases List.mem_map.mp hmem with ⟨b, hb, hbeq⟩
        exact (hrest b hb).2.2 (by rw [← hbeq]; exact List.mem_cons_self _ _)

lemma validateSplitMove_ok {game : GameState} {allocations : List Allocation}
    (h : validateSplitMove game allocations = Except.ok ()) :
    2 ≤ allocations.length ∧
      (∀ a ∈ allocations, 0 ≤ a.square ∧ a.square < (game.size * game.size : ℤ)) ∧
      (allocations.map Allocation.square).Nodup ∧
      |splitTotal allocations - 1| ≤ EPSILON ∧
      (∀ a ∈ allocations, -EPSILON ≤ a.prob) ∧
      (∀ a ∈ allocations, a.prob ≤ (boardCell game.board a.square).probEmpty + EPSILON) := by
  unfold validateSplitMove at h
  split at h
  · cases h
  · rename_i h1
    split at h
    · cases h
    · rename_i u hd
      cases u
      obtain ⟨hsq, hnd⟩ := checkDuplicateSquares_ok hd
      split_ifs at h with h2 h3 h4
      simp only [List.any_eq_true, decide_eq_true_eq, not_exists, not_and,
        not_lt] at h3 h4
      push_neg at h1 h2
      refine ⟨by omega, fun a ha => ⟨(hsq a ha).1, (hsq a ha).2.1⟩, hnd, h2, ?_, ?_⟩
      · intro a ha
        by_contra hcon
        push_neg at hcon
        exact absurd (h3 a ha) (by linarith)
      · intro a ha
        by_contra hcon
        push_neg at hcon
        exact absurd (h4 a ha) (by linarith)

/-- Everything `makeMove g m = ok g'` implies about `g` and `g'`. -/
lemma makeMove_ok_inv {g : GameState} {m : Move} {g' : GameState}
    (h : makeMove g m = Except.ok g') :
    g.gamePhase = GamePhase.playing ∧ m.player = g.currentPlayer ∧
    g'.movesPlayed = g.movesPlayed + 1 ∧ g'.totalMoves = g.totalMoves ∧
    g'.size = g.size ∧
    g'.gamePhase =
      (if g.totalMoves ≤ g.movesPlayed + 1 then GamePhase.ready_to_collapse
       else g.gamePhase) ∧
    ((∃ p sq, m = Move.classical p sq ∧ validateClassicalMove g sq = Except.ok () ∧
        g'.board = applyClassical g.board p sq) ∨
      (∃ p allocs, m = Move.split p allocs ∧ validateSplitMove g allocs = Except.ok () ∧
        g'.board = applySplit g.board p allocs)) := by
  cases m with
  | classical p sq =>
    simp only [makeMove] at h
    split_ifs at h with h1 h2
    push_neg at h1 h2
    rcases hv : validateClassicalMove g sq with e | u
    · rw [hv] at h; cases h
    · rw [hv] at h
      cases u
      simp only [Except.ok.injEq] at h
      subst h
      refine ⟨h1, (by simpa [Move.player] using h2), rfl, rfl, rfl, ?_,
        Or.inl ⟨p, sq, rfl, hv, rfl⟩⟩
      simp [finishMove, h1]
  | split p allocs =>
    simp only [makeMove] at h
    split_ifs at h with h1 h2
    push_neg at h1 h2
    rcases hv : validateSplitMove g allocs with e | u
    · rw [hv] at h; cases h
    · rw [hv] at h
      cases u
      simp only [Except.ok.injEq] at h
      subst h
      refine ⟨h1, (by simpa [Move.player] using h2), rfl, rfl, rfl, ?_,
        Or.inr ⟨p, allocs, rfl, hv, rfl⟩⟩
      simp [finishMove, h1]

end QT

namespace QT

/-! ### Reachable sessions and the per-cell invariant (C3, C4) -/

/-- What actually holds of one cell after `n` accepted moves: components
are non-negative, the marks are clamped into `[0,1]`, and the total mass
stays within `n·ε` of `1` (the `±ε` move tolerances accumulate). -/
def CellWF (n : ℕ) (c : QutritState) : Prop :=
  0 ≤ c.probEmpty ∧ 0 ≤ c.probX ∧ c.probX ≤ 1 ∧ 0 ≤ c.probO ∧ c.probO ≤ 1 ∧
    |c.probEmpty + c.probX + c.probO - 1| ≤ (n : ℚ) * EPSILON

/-- Structural invariant of every session reachable from `createGame`. -/
def SessionWF (g : GameState) : Prop :=
  (g.gamePhase = GamePhase.playing ∨ g.gamePhase = GamePhase.ready_to_collapse) ∧
  g.movesPlayed ≤ g.totalMoves ∧
  (g.gamePhase = GamePhase.ready_to_collapse ↔ g.movesPlayed = g.totalMoves) ∧
  g.totalMoves = g.size * g.size ∧
  0 < g.totalMoves ∧
  g.board.length = g.size * g.size ∧
  ∀ c ∈ g.board, CellWF g.movesPlayed c

/-- Sessions reachable from `createGame` by accepted `makeMove` calls. -/
inductive Reachable : GameState → Prop where
  | create : ∀ (size : ℕ) (gm : GameMode) (ai : Option Player),
      size = 2 ∨ size = 3 ∨ size = 4 → Reachable (createGame size gm ai)
  | step : ∀ (g : GameState) (m : Move) (g' : GameState),
      Reachable g → makeMove g m = Except.ok g' → Reachable g'

lemma epsilon_pos : (0 : ℚ) < EPSILON := by norm_num [EPSILON]

lemma cellWF_mono {n m : ℕ} {c : QutritState} (h : CellWF n c) (hnm : n ≤ m) :
    CellWF m c := by
  obtain ⟨h1, h2, h3, h4, h5, h6⟩ := h
  refine ⟨h1, h2, h3, h4, h5, le_trans h6 ?_⟩
  have hnm2 : (n : ℚ) ≤ (m : ℚ) := by exact_mod_cast hnm
  exact mul_le_mul_of_nonneg_right hnm2 (le_of_lt epsilon_pos)

lemma updateCell_X (c : QutritState) (p : ℚ) :
    updateCell c Player.X p =
      { probEmpty := max 0 (c.probEmpty - p)
        probO := min 1 (max 0 c.probO)
        probX := min 1 (max 0 (c.probX + p)) } := by
  simp [updateCell]

lemma updateCell_O (c : QutritState) (p : ℚ) :
    updateCell c Player.O p =
      { probEmpty := max 0 (c.probEmpty - p)
        probO := min 1 (max 0 (c.probO + p))
        probX := min 1 (max 0 c.probX) } := by
  simp [updateCell]

lemma updateCell_wf {n : ℕ} {c : QutritState} {player : Player} {p : ℚ}
    (hc : CellWF n c) (hp1 : -EPSILON ≤ p) (hp2 : p ≤ c.probEmpty + EPSILON) :
    CellWF (n + 1) (updateCell c player p) := by
  obtain ⟨he, hx, hx1, ho, ho1, habs⟩ := hc
  rw [abs_le] at habs
  obtain ⟨hs1, hs2⟩ := habs
  have hcast : ((n + 1 : ℕ) : ℚ) = (n : ℚ) + 1 := by push_cast; ring
  rw [show EPSILON = 1 / 1000 from rfl] at hp1 hp2 hs1 hs2
  cases player with
  | X =>
    rw [updateCell_X]
    have hoeq : min 1 (max 0 c.probO) = c.probO := by
      rw [max_eq_right ho, min_eq_right ho1]
    simp only [CellWF, hoeq]
    refine ⟨le_max_left _ _, le_min (by norm_num) (le_max_left _ _),
      min_le_left _ _, ho, ho1, ?_⟩
    rw [hcast, abs_le, show EPSILON = 1 / 1000 from rfl]
    rcases le_total (c.probEmpty - p) 0 with hep | hep <;>
      rcases le_total (c.probX + p) 0 with hxp | hxp
    · rw [max_eq_left hep, max_eq_left hxp, min_eq_right (by norm_num : (0:ℚ) ≤ 1)]
      constructor <;> linarith
    · rw [max_eq_left hep, max_eq_right hxp]
      rcases le_total 1 (c.probX + p) with hx2 | hx2
      · rw [min_eq_left hx2]
        constructor <;> linarith
      · rw [min_eq_right hx2]
        constructor <;> linarith
    · rw [max_eq_right hep, max_eq_left hxp, min_eq_right (by norm_num : (0:ℚ) ≤ 1)]
      constructor <;> linarith
    · rw [max_eq_right hep, max_eq_right hxp]
      rcases le_total 1 (c.probX + p) with hx2 | hx2
      · rw [min_eq_left hx2]
        constructor <;> linarith
      · rw [min_eq_right hx2]
        constructor <;> linarith
  | O =>
    rw [updateCell_O]
    have hxeq : min 1 (max 0 c.probX) = c.probX := by
      rw [max_eq_right hx, min_eq_right hx1]
    simp only [CellWF, hxeq]
    refine ⟨le_max_left _ _, hx, hx1,
      le_min (by norm_num) (le_max_left _ _), min_le_left _ _, ?_⟩
    rw [hcast, abs_le, show EPSILON = 1 / 1000 from rfl]
    rcases le_total (c.probEmpty - p) 0 with hep | hep <;>
      rcases le_total (c.probO + p) 0 with hxp | hxp
    · rw [max_eq_left hep, max_eq_left hxp, min_eq_right (by norm_num : (0:ℚ) ≤ 1)]
      constructor <;> linarith
    · rw [max_eq_left hep, max_eq_right hxp]
      rcases le_total 1 (c.probO + p) with hx2 | hx2
      · rw [min_eq_left hx2]
        constructor <;> linarith
      · rw [min_eq_right hx2]
        constructor <;> linarith
    · rw [max_eq_right hep, max_eq_left hxp, min_eq_right (by norm_num : (0:ℚ) ≤ 1)]
      constructor <;> linarith
    · rw [max_eq_right hep, max_eq_right hxp]
      rcases le_total 1 (c.probO + p) with hx2 | hx2
      · rw [min_eq_left hx2]
        constructor <;> linarith
      · rw [min_eq_right hx2]
        constructor <;> linarith

end QT

namespace QT

lemma applyAllocation_length (board : List QutritState) (player : Player) (a : Allocation) :
    (applyAllocation board player a).length = board.length := by
  simp [applyAllocation]

lemma applySplit_length (player : Player) :
    ∀ (allocs : List Allocation) (board : List QutritState),
      (applySplit board player allocs).length = board.length := by
  intro allocs
  induction allocs with
  | nil => intro board; rfl
  | cons a rest ih =>
    intro board
    have hstep : applySplit board player (a :: rest) =
        applySplit (applyAllocation board player a) player rest := rfl
    rw [hstep, ih, applyAllocation_length]

lemma applyClassical_length (board : List QutritState) (player : Player) (square : ℤ) :
    (applyClassical board player square).length = board.length := by
  simp [applyClassical]

lemma boardCell_of_lt {board : List QutritState} {square : ℤ}
    (h : square.toNat < board.length) :
    board[square.toNat]? = some (boardCell board square) := by
  rw [List.getElem?_eq_getElem h]
  simp [boardCell, List.getD_eq_getElem?_getD, List.getElem?_eq_getElem h]

/-- Every cell of the board after an accepted split move is either an
untouched original cell or the once-updated image of an original cell. -/
lemma applySplit_mem {player : Player} :
    ∀ (allocs : List Allocation) (board : List QutritState),
      (∀ a ∈ allocs, 0 ≤ a.square) →
      (∀ a ∈ allocs, a.square.toNat < board.length) →
      (allocs.map Allocation.square).Nodup →
      ∀ cell ∈ applySplit board player allocs,
        cell ∈ board ∨
          ∃ a ∈ allocs, ∃ c, board[a.square.toNat]? = some c ∧
            cell = updateCell c player a.prob := by
  intro allocs
  induction allocs with
  | nil => intro board _ _ _ cell hc; exact Or.inl hc
  | cons a rest ih =>
    intro board hnn hlen hnd cell hc
    have hlen' : a.square.toNat < board.length := hlen a (List.mem_cons_self a rest)
    have hstep : applySplit board player (a :: rest) =
        applySplit (applyAllocation board player a) player rest := rfl
    rw [hstep] at hc
    rw [List.map_cons, List.nodup_cons] at hnd
    have hres := ih (applyAllocation board player a)
      (fun b hb => hnn b (List.mem_cons_of_mem _ hb))
      (fun b hb => by
        rw [applyAllocation_length]; exact hlen b (List.mem_cons_of_mem _ hb))
      hnd.2 cell hc
    rcases hres with hmem | ⟨a', ha', c', hc', heq⟩
    · rw [applyAllocation] at hmem
      rcases List.mem_or_eq_of_mem_set hmem with h | h
      · exact Or.inl h
      · refine Or.inr ⟨a, List.mem_cons_self a rest, boardCell board a.square,
          boardCell_of_lt hlen', h⟩
    · have hne : a'.square ≠ a.square := by
        intro hcon
        exact hnd.1 (List.mem_map.mpr ⟨a', ha', hcon⟩)
      have hne2 : a'.square.toNat ≠ a.square.toNat := by
        intro hcon
        apply hne
        have h1 := Int.toNat_of_nonneg (hnn a' (List.mem_cons_of_mem _ ha'))
        have h2 := Int.toNat_of_nonneg (hnn a (List.mem_cons_self a rest))
        rw [← h1, ← h2, hcon]
      rw [applyAllocation, List.getElem?_set_ne (fun hcon => hne2 hcon.symm)] at hc'
      exact Or.inr ⟨a', List.mem_cons_of_mem _ ha', c', hc', heq⟩

lemma applyClassical_set_X (board : List QutritState) (sq : ℤ) :
    applyClassical board Player.X sq =
      board.set sq.toNat
        { probEmpty := 0, probO := (boardCell board sq).probO, probX := 1 } := by
  simp [applyClassical]

lemma applyClassical_set_O (board : List QutritState) (sq : ℤ) :
    applyClassical board Player.O sq =
      board.set sq.toNat
        { probEmpty := 0, probO := 1, probX := (boardCell board sq).probX } := by
  simp [applyClassical]

/-- The structural invariant is preserved by every accepted move. -/
lemma sessionWF_step {g : GameState} {m : Move} {g' : GameState}
    (hwf : SessionWF g) (h : makeMove g m = Except.ok g') : SessionWF g' := by
  obtain ⟨hphase, hle, hiff, htot, hpos, hblen, hcells⟩ := hwf
  obtain ⟨hpl, -, hmp, htot', hsize, hph', hbd⟩ := makeMove_ok_inv h
  have hlt : g.movesPlayed < g.totalMoves := by
    rcases Nat.lt_or_ge g.movesPlayed g.totalMoves with h1 | h1
    · exact h1
    · have : g.movesPlayed = g.totalMoves := le_antisymm hle h1
      rw [← hiff] at this
      rw [hpl] at this
      cases this
  have hboard :
      ∀ c ∈ g'.board, CellWF (g.movesPlayed + 1) c := by
    rcases hbd with ⟨p, sq, -, hv, hb⟩ | ⟨p, allocs, -, hv, hb⟩
    · -- classical move
      obtain ⟨hsq0, hsqlt, hcap⟩ := validateClassicalMove_ok hv
      have hsqlt2 : sq < ((g.size * g.size : ℕ) : ℤ) := by exact_mod_cast hsqlt
      have hidx : sq.toNat < g.board.length := by
        rw [hblen]
        omega
      have hc0 : boardCell g.board sq ∈ g.board := by
        have h1 := boardCell_of_lt hidx
        have h2 := List.getElem?_eq_getElem hidx
        rw [h2] at h1
        rw [← Option.some_injective _ h1]
        exact List.getElem_mem hidx
      obtain ⟨he, hx, hx1, ho, ho1, habs⟩ := hcells _ hc0
      rw [abs_le] at habs
      rw [show EPSILON = 1 / 1000 from rfl] at hcap
      intro c hc
      rw [hb] at hc
      cases p with
      | X =>
        rw [applyClassical_set_X] at hc
        rcases List.mem_or_eq_of_mem_set hc with hmem | hceq
        · exact cellWF_mono (hcells c hmem) (Nat.le_succ _)
        · subst hceq
          simp only [CellWF]
          refine ⟨le_refl 0, by norm_num, by norm_num, ho, ho1, ?_⟩
          rw [show EPSILON = 1 / 1000 from rfl] at habs
          rw [abs_le, show EPSILON = 1 / 1000 from rfl]
          push_cast
          constructor <;> linarith [habs.1, habs.2]
      | O =>
        rw [applyClassical_set_O] at hc
        rcases List.mem_or_eq_of_mem_set hc with hmem | hceq
        · exact cellWF_mono (hcells c hmem) (Nat.le_succ _)
        · subst hceq
          simp only [CellWF]
          refine ⟨le_refl 0, hx, hx1, by norm_num, by norm_num, ?_⟩
          rw [show EPSILON = 1 / 1000 from rfl] at habs
          rw [abs_le, show EPSILON = 1 / 1000 from rfl]
          push_cast
          constructor <;> linarith [habs.1, habs.2]
    · -- split move
      obtain ⟨-, hsqr, hnd, -, hneg, hcap⟩ := validateSplitMove_ok hv
      intro c hc
      rw [hb] at hc
      have hres := applySplit_mem allocs g.board
        (fun a ha => (hsqr a ha).1)
        (fun a ha => by
          have h1 := (hsqr a ha).1
          have h2 : a.square < ((g.size * g.size : ℕ) : ℤ) := by
            exact_mod_cast (hsqr a ha).2
          rw [hblen]
          omega)
        hnd c hc
      rcases hres with hmem | ⟨a, ha, c0, hc0, hceq⟩
      · exact cellWF_mono (hcells c hmem) (Nat.le_succ _)
      · have hidx : a.square.toNat < g.board.length := by
          by_contra hcon
          push_neg at hcon
          rw [List.getElem?_eq_none hcon] at hc0
          cases hc0
        have hsome := boardCell_of_lt hidx
        have hcc : boardCell g.board a.square = c0 :=
          Option.some_injective _ (hsome.symm.trans hc0)
        have hgetc : g.board[a.square.toNat] = boardCell g.board a.square :=
          Option.some_injective _ ((List.getElem?_eq_getElem hidx).symm.trans hsome)
        have hc0mem : c0 ∈ g.board := by
          rw [← hcc, ← hgetc]
          exact List.getElem_mem hidx
        rw [hceq]
        exact updateCell_wf (hcells c0 hc0mem) (hneg a ha)
          (by rw [← hcc]; exact hcap a ha)
  refine ⟨?_, ?_, ?_, by rw [htot']; exact htot.trans (by rw [hsize]), ?_, ?_, ?_⟩
  · rw [hph']
    split_ifs with hc
    · right; rfl
    · left; exact hpl
  · rw [hmp, htot']
    omega
  · rw [hph', hmp, htot']
    split_ifs with hc
    · simp only [true_iff]
      omega
    · constructor
      · intro hcon
        rw [hpl] at hcon
        cases hcon
      · intro hcon
        omega
  · rw [htot']
    exact hpos
  · rcases hbd with ⟨p, sq, -, -, hb⟩ | ⟨p, allocs, -, -, hb⟩
    · rw [hb, applyClassical_length, hblen, hsize]
    · rw [hb, applySplit_length, hblen, hsize]
  · rw [hmp]
    exact hboard

end QT

namespace QT

lemma reachable_sessionWF {g : GameState} (h : Reachable g) : SessionWF g := by
  induction h with
  | create size gm ai hs =>
    have hpos : 0 < size * size := by rcases hs with rfl | rfl | rfl <;> norm_num
    refine ⟨Or.inl rfl, Nat.zero_le _, ?_, rfl, hpos,
      by simp [createGame, createInitialBoard], ?_⟩
    · constructor
      · intro hcon; cases hcon
      · intro hcon
        simp only [createGame] at hcon
        omega
    · intro c hc
      simp only [createGame, createInitialBoard] at hc
      have := List.eq_of_mem_replicate hc
      subst this
      norm_num [CellWF, EPSILON, createGame]
  | step g m g' hg hok ih => exact sessionWF_step ih hok

/-- C3 (amended): in every reachable session the phase is
`ready_to_collapse` exactly when the number of accepted moves has reached
`totalMoves = side²`.  (This does *not* always coincide with every cell
having `probEmpty ≤ ε`; see the counterexample.) -/
theorem phase_ready_iff_moves_complete {g : GameState} (h : Reachable g) :
    (g.gamePhase = GamePhase.ready_to_collapse ↔ g.movesPlayed = g.totalMoves) ∧
      g.totalMoves = g.size * g.size :=
  ⟨(reachable_sessionWF h).2.2.1, (reachable_sessionWF h).2.2.2.1⟩

/-- Closed witness for `phase_ready_iff_moves_complete`. -/
theorem phase_ready_iff_moves_complete_witness :
    Reachable (createGame 2 GameMode.pvp none) ∧
      (((createGame 2 GameMode.pvp none).gamePhase = GamePhase.ready_to_collapse ↔
          (createGame 2 GameMode.pvp none).movesPlayed =
            (createGame 2 GameMode.pvp none).totalMoves) ∧
        (createGame 2 GameMode.pvp none).totalMoves =
          (createGame 2 GameMode.pvp none).size * (createGame 2 GameMode.pvp none).size) :=
  ⟨Reachable.create 2 GameMode.pvp none (Or.inl rfl),
    phase_ready_iff_moves_complete (Reachable.create 2 GameMode.pvp none (Or.inl rfl))⟩

deriving instance DecidableEq for Except

/-- Run one move, keeping the old session if the move is rejected. -/
def stepOr (g : GameState) (m : Move) : GameState :=
  match makeMove g m with
  | Except.ok g' => g'
  | Except.error _ => g

lemma reachable_stepOr {g : GameState} (h : Reachable g) (m : Move) :
    Reachable (stepOr g m) := by
  unfold stepOr
  rcases hm : makeMove g m with e | g'
  · exact h
  · exact Reachable.step g m g' h hm

/-- Four split moves on a 2×2 board, each summing to `1 - ε` (which the
sum tolerance accepts), reaching `ready_to_collapse` with cell 0 still at
`probEmpty = 0.0015 > ε`. -/
def c3Session : GameState :=
  stepOr (stepOr (stepOr (stepOr (createGame 2 GameMode.pvp none)
    (Move.split Player.X [⟨0, 9985/10000⟩, ⟨1, 5/10000⟩]))
    (Move.split Player.O [⟨1, 999/1000⟩, ⟨2, 0⟩]))
    (Move.split Player.X [⟨2, 999/1000⟩, ⟨3, 0⟩]))
    (Move.split Player.O [⟨3, 999/1000⟩, ⟨2, 0⟩])

unseal Rat.add Rat.mul Rat.sub Rat.inv Rat.ofScientific in
/-- C3 counterexample: a session reachable by accepted `makeMove` calls
whose phase is `ready_to_collapse` although one cell's empty probability
still exceeds ε, refuting the claimed equivalence. -/
theorem c3_counterexample :
    Reachable c3Session ∧ c3Session.gamePhase = GamePhase.ready_to_collapse ∧
      ¬ ∀ c ∈ c3Session.board, c.probEmpty ≤ EPSILON :=
  ⟨reachable_stepOr (reachable_stepOr (reachable_stepOr (reachable_stepOr
      (Reachable.create 2 GameMode.pvp none (Or.inl rfl)) _) _) _) _,
    by decide, by decide⟩

/-- C4 (amended): in every reachable session every cell's components are
non-negative and the three probabilities sum to `1 ± movesPlayed·ε`; the
`±ε` split tolerance accumulates, so a fixed `±ε` bound does not hold
(see the counterexample). -/
theorem cell_distribution_invariant {g : GameState} (h : Reachable g) :
    ∀ c ∈ g.board, 0 ≤ c.probEmpty ∧ 0 ≤ c.probX ∧ 0 ≤ c.probO ∧
      |c.probEmpty + c.probX + c.probO - 1| ≤ (g.movesPlayed : ℚ) * EPSILON := by
  intro c hc
  obtain ⟨he, hx, hx1, ho, ho1, habs⟩ := (reachable_sessionWF h).2.2.2.2.2.2 c hc
  exact ⟨he, hx, ho, habs⟩

unseal Rat.add Rat.mul Rat.sub Rat.inv Rat.ofScientific in
/-- Closed witness for `cell_distribution_invariant`. -/
theorem cell_distribution_invariant_witness :
    Reachable (createGame 2 GameMode.pvp none) ∧
      ∀ c ∈ (createGame 2 GameMode.pvp none).board,
        0 ≤ c.probEmpty ∧ 0 ≤ c.probX ∧ 0 ≤ c.probO ∧
          |c.probEmpty + c.probX + c.probO - 1| ≤
            ((createGame 2 GameMode.pvp none).movesPlayed : ℚ) * EPSILON :=
  ⟨Reachable.create 2 GameMode.pvp none (Or.inl rfl),
    cell_distribution_invariant (Reachable.create 2 GameMode.pvp none (Or.inl rfl))⟩

/-- A classical move on a cell that holds residual opponent mass, then a
further split into the same cell, drives the cell's total to
`1.002 > 1 + ε`. -/
def c4Session : GameState :=
  stepOr (stepOr (stepOr (stepOr (createGame 3 GameMode.pvp none)
    (Move.classical Player.X 8))
    (Move.split Player.O [⟨0, 1/1000⟩, ⟨1, 999/1000⟩]))
    (Move.classical Player.X 0))
    (Move.split Player.O [⟨0, 1/1000⟩, ⟨2, 998/1000⟩])

unseal Rat.add Rat.mul Rat.sub Rat.inv Rat.ofScientific in
/-- C4 counterexample: a reachable session with a cell whose probability
mass sums to `1.002`, outside `1 ± ε`. -/
theorem c4_counterexample :
    Reachable c4Session ∧
      ¬ ∀ c ∈ c4Session.board, |c.probEmpty + c.probX + c.probO - 1| ≤ EPSILON :=
  ⟨reachable_stepOr (reachable_stepOr (reachable_stepOr (reachable_stepOr
      (Reachable.create 3 GameMode.pvp none (Or.inr (Or.inl rfl))) _) _) _) _,
    by decide⟩

/-- C7 (amended): a split move is rejected when some allocation amount is
strictly below `-ε`; amounts in `[-ε, 0)` pass the tolerance check (see
the counterexample). -/
theorem split_negative_below_tolerance_rejected {g : GameState} {p : Player}
    {allocs : List Allocation} (h : ∃ a ∈ allocs, a.prob < -EPSILON) :
    ∀ g', makeMove g (Move.split p allocs) ≠ Except.ok g' := by
  intro g' hok
  obtain ⟨-, -, -, -, -, -, hbd⟩ := makeMove_ok_inv hok
  rcases hbd with ⟨p', sq, heq, -, -⟩ | ⟨p', allocs', heq, hv, -⟩
  · cases heq
  · injection heq with h1 h2
    subst h1
    subst h2
    obtain ⟨a, ha, hlt⟩ := h
    have := (validateSplitMove_ok hv).2.2.2.2.1 a ha
    linarith

unseal Rat.add Rat.mul Rat.sub Rat.inv Rat.ofScientific in
/-- Closed witness for `split_negative_below_tolerance_rejected`. -/
theorem split_negative_below_tolerance_rejected_witness :
    (∃ a ∈ [(⟨0, 1/2⟩ : Allocation), ⟨1, -(2/1000)⟩], a.prob < -EPSILON) ∧
      ∀ g', makeMove (createGame 3 GameMode.pvp none)
        (Move.split Player.X [⟨0, 1/2⟩, ⟨1, -(2/1000)⟩]) ≠ Except.ok g' :=
  ⟨by decide, split_negative_below_tolerance_rejected (by decide)⟩

unseal Rat.add Rat.mul Rat.sub Rat.inv Rat.ofScientific in
/-- C7 counterexample: a split move containing the strictly negative
allocation `-0.0005` (which is ≥ `-ε`) is accepted by `makeMove`. -/
theorem c7_counterexample :
    (∃ a ∈ [(⟨0, 1⟩ : Allocation), ⟨1, -(5/10000)⟩], a.prob < 0) ∧
      ∃ g', makeMove (createGame 3 GameMode.pvp none)
        (Move.split Player.X [⟨0, 1⟩, ⟨1, -(5/10000)⟩]) = Except.ok g' :=
  ⟨by decide,
    ⟨stepOr (createGame 3 GameMode.pvp none)
        (Move.split Player.X [⟨0, 1⟩, ⟨1, -(5/10000)⟩]),
      by decide⟩⟩

end QT

namespace QT

/-! ### Collapse sampling (C6) -/

lemma collapseCell_renormalized {c : QutritState} (hpe : c.probEmpty < EPSILON)
    (htot : EPSILON < c.probX + c.probO) (rand : ℚ) :
    collapseCell c rand =
      (if rand < c.probX / (c.probX + c.probO) then CellState.X
       else if rand < c.probX / (c.probX + c.probO) + c.probO / (c.probX + c.probO) then
         CellState.O
       else CellState.empty) := by
  have hcond : ((if c.probEmpty < EPSILON then (0:ℚ) else c.probEmpty) < EPSILON ∧
      EPSILON < c.probX + c.probO) := by
    rw [if_pos hpe]; exact ⟨epsilon_pos, htot⟩
  simp only [collapseCell]
  rw [if_pos hcond]

lemma collapseCell_raw {c : QutritState} (hpe : ¬ c.probEmpty < EPSILON) (rand : ℚ) :
    collapseCell c rand =
      (if rand < c.probX then CellState.X
       else if rand < c.probX + c.probO then CellState.O
       else CellState.empty) := by
  have hcond : ¬ ((if c.probEmpty < EPSILON then (0:ℚ) else c.probEmpty) < EPSILON ∧
      EPSILON < c.probX + c.probO) := by
    rw [if_neg hpe]; exact fun hcon => hpe hcon.1
  simp only [collapseCell]
  rw [if_neg hcond]

/-- C6 (amended): on a `ready_to_collapse` session with well-formed
cells, `collapseBoard` succeeds and resolves every cell independently
from its own random draw: when the cell's empty probability is *strictly
below* ε the `(probX, probO)` pair is first renormalized to sum to
exactly 1, while at `probEmpty = ε` exactly — still "within ε of 0" in
the claim's sense — the raw three-way distribution is sampled and the
residual empty mass is kept (see the counterexample).  The cell resolves
to `X` if `r < pX`, else to `O` if `r < pX + pO`, else to `empty`. -/
theorem collapseBoard_sampling {g : GameState} (r : ℕ → ℚ)
    (hph : g.gamePhase = GamePhase.ready_to_collapse)
    (hwf : ∀ c ∈ g.board,
      0 ≤ c.probX ∧ 0 ≤ c.probO ∧ 1/2 ≤ c.probEmpty + c.probX + c.probO) :
    ∃ g', collapseBoard g r = Except.ok g' ∧
      ∃ cb, g'.collapsedBoard = some cb ∧ cb.length = g.board.length ∧
        ∀ i c, g.board[i]? = some c →
          ∃ pX pO,
            (if c.probEmpty < EPSILON then
              pX = c.probX / (c.probX + c.probO) ∧
                pO = c.probO / (c.probX + c.probO) ∧ pX + pO = 1
            else pX = c.probX ∧ pO = c.probO) ∧
            cb[i]? = some (if r i < pX then CellState.X
              else if r i < pX + pO then CellState.O else CellState.empty) := by
  have hcond : ¬ (g.gamePhase ≠ GamePhase.ready_to_collapse) := by rw [hph]; simp
  refine ⟨{ g with
      gamePhase := GamePhase.collapsed
      collapsedBoard := some (g.board.enum.map fun p => collapseCell p.2 (r p.1))
      winner := detectWinner (g.board.enum.map fun p => collapseCell p.2 (r p.1)) g.size },
    ?_, ?_⟩
  · unfold collapseBoard
    rw [if_neg hcond]
  · refine ⟨g.board.enum.map fun p => collapseCell p.2 (r p.1), rfl, by simp, ?_⟩
    intro i c hc
    have hmem : c ∈ g.board := by
      have hlt : i < g.board.length := by
        by_contra hcon
        push_neg at hcon
        rw [List.getElem?_eq_none hcon] at hc
        cases hc
      have := List.getElem?_eq_getElem hlt
      rw [this] at hc
      rw [← Option.some_injective _ hc]
      exact List.getElem_mem hlt
    obtain ⟨hx, ho, hsum⟩ := hwf c hmem
    have hcb : (g.board.enum.map fun p => collapseCell p.2 (r p.1))[i]? =
        some (collapseCell c (r i)) := by
      rw [List.getElem?_map, List.getElem?_enum, hc]
      rfl
    by_cases hpe : c.probEmpty < EPSILON
    · have htot : EPSILON < c.probX + c.probO := by
        rw [show EPSILON = 1 / 1000 from rfl] at hpe ⊢
        linarith
      have hne : c.probX + c.probO ≠ 0 := by
        intro hcon
        rw [hcon] at htot
        exact absurd htot (by norm_num [EPSILON])
      refine ⟨c.probX / (c.probX + c.probO), c.probO / (c.probX + c.probO),
        ?_, ?_⟩
      · rw [if_pos hpe]
        refine ⟨rfl, rfl, ?_⟩
        rw [div_add_div_same, div_self hne]
      · rw [hcb, collapseCell_renormalized hpe htot]
    · refine ⟨c.probX, c.probO, ?_, ?_⟩
      · rw [if_neg hpe]
        exact ⟨rfl, rfl⟩
      · rw [hcb, collapseCell_raw hpe]

/-- A fully committed two-cell session in phase `ready_to_collapse`. -/
def c6Session : GameState :=
  { id := "g"
    board := [{ probEmpty := 0, probO := 0, probX := 1 },
              { probEmpty := 1, probO := 0, probX := 0 }]
    size := 2
    currentPlayer := Player.X
    movesPlayed := 4
    totalMoves := 4
    gamePhase := GamePhase.ready_to_collapse
    moves := []
    gameMode := GameMode.pvp
    aiPlayer := none }

unseal Rat.add Rat.mul Rat.sub Rat.inv Rat.ofScientific in
/-- Closed witness for `collapseBoard_sampling`. -/
theorem collapseBoard_sampling_witness :
    c6Session.gamePhase = GamePhase.ready_to_collapse ∧
      (∀ c ∈ c6Session.board,
        0 ≤ c.probX ∧ 0 ≤ c.probO ∧ 1/2 ≤ c.probEmpty + c.probX + c.probO) ∧
      ∃ g', collapseBoard c6Session (fun _ => 1/2) = Except.ok g' ∧
        ∃ cb, g'.collapsedBoard = some cb ∧ cb.length = c6Session.board.length ∧
          ∀ (i : ℕ) (c : QutritState), c6Session.board[i]? = some c →
            ∃ pX pO,
              (if c.probEmpty < EPSILON then
                pX = c.probX / (c.probX + c.probO) ∧
                  pO = c.probO / (c.probX + c.probO) ∧ pX + pO = 1
              else pX = c.probX ∧ pO = c.probO) ∧
              cb[i]? = some (if (fun _ => (1:ℚ)/2) i < pX then CellState.X
                else if (fun _ => (1:ℚ)/2) i < pX + pO then CellState.O
                else CellState.empty) :=
  ⟨rfl, by decide, collapseBoard_sampling (fun _ => 1/2) rfl (by decide)⟩

/-- Run the collapse, keeping the old session if it is rejected. -/
def collapseOr (g : GameState) (r : ℕ → ℚ) : GameState :=
  match collapseBoard g r with
  | Except.ok g' => g'
  | Except.error _ => g

unseal Rat.add Rat.mul Rat.sub Rat.inv Rat.ofScientific in
/-- C6 counterexample: the reachable `ready_to_collapse` session
`c3Session` has cell 2 at `probEmpty = ε` exactly, i.e. within ε of 0,
with `(probX, probO) = (0.999, 0)`.  Renormalizing that pair gives
`pX = 1`, `pX + pO = 1`, so under the claimed rule the draw `r = 0.999`
(which is `< pX`) must resolve the cell to `X` — and a renormalized cell
can never resolve to `empty`.  The code instead samples the raw
distribution (it renormalizes only for `probEmpty < ε` strictly) and
resolves cell 2 to `empty`. -/
theorem c6_counterexample :
    Reachable c3Session ∧
      c3Session.gamePhase = GamePhase.ready_to_collapse ∧
      (c3Session.board.getD 2 dummyCell).probEmpty ≤ EPSILON ∧
      (999/1000 : ℚ) <
        (c3Session.board.getD 2 dummyCell).probX /
          ((c3Session.board.getD 2 dummyCell).probX +
            (c3Session.board.getD 2 dummyCell).probO) ∧
      (c3Session.board.getD 2 dummyCell).probX /
          ((c3Session.board.getD 2 dummyCell).probX +
            (c3Session.board.getD 2 dummyCell).probO) +
        (c3Session.board.getD 2 dummyCell).probO /
          ((c3Session.board.getD 2 dummyCell).probX +
            (c3Session.board.getD 2 dummyCell).probO) = 1 ∧
      collapseBoard c3Session (fun _ => 999/1000) =
        Except.ok (collapseOr c3Session fun _ => 999/1000) ∧
      (collapseOr c3Session fun _ => 999/1000).collapsedBoard =
        some [CellState.empty, CellState.O, CellState.empty, CellState.empty] :=
  ⟨reachable_stepOr (reachable_stepOr (reachable_stepOr (reachable_stepOr
      (Reachable.create 2 GameMode.pvp none (Or.inl rfl)) _) _) _) _,
    by decide⟩

end QT




namespace QT

/-! ### The max-heap: multiset (permutation) semantics -/

lemma perm_set {α : Type} : ∀ (l : List α) (k : ℕ) (a b : α), l[k]? = some b →
    List.Perm (a :: l) (b :: l.set k a) := by
  intro l
  induction l with
  | nil => intro k a b h; cases h
  | cons x t ih =>
    intro k a b h
    cases k with
    | zero =>
      rw [List.getElem?_cons_zero] at h
      have hxb : x = b := Option.some_injective _ h
      rw [List.set_cons_zero, ← hxb]
      exact List.Perm.swap x a t
    | succ m =>
      rw [List.getElem?_cons_succ] at h
      rw [List.set_cons_succ]
      exact ((List.Perm.swap x a t).trans ((ih m a b h).cons x)).trans
        (List.Perm.swap b x (t.set m a))

lemma set_set_perm {α : Type} : ∀ (l : List α) (i j : ℕ) (a b : α),
    l[i]? = some a → l[j]? = some b → List.Perm ((l.set i b).set j a) l := by
  intro l
  induction l with
  | nil => intro i j a b h; cases h
  | cons x t ih =>
    intro i j a b hi hj
    cases i with
    | zero =>
      rw [List.getElem?_cons_zero] at hi
      have hxa : x = a := Option.some_injective _ hi
      rw [List.set_cons_zero]
      cases j with
      | zero =>
        rw [List.set_cons_zero, ← hxa]
      | succ m =>
        rw [List.getElem?_cons_succ] at hj
        rw [List.set_cons_succ, ← hxa]
        exact (perm_set t m x b hj).symm
    | succ n =>
      rw [List.getElem?_cons_succ] at hi
      cases j with
      | zero =>
        rw [List.getElem?_cons_zero] at hj
        have hxb : x = b := Option.some_injective _ hj
        rw [List.set_cons_succ, List.set_cons_zero, ← hxb]
        exact (perm_set t n x a hi).symm
      | succ m =>
        rw [List.getElem?_cons_succ] at hj
        rw [List.set_cons_succ, List.set_cons_succ]
        exact (ih n m a b hi hj).cons x

lemma listSwap_perm {α : Type} (l : List α) (i j : ℕ) :
    List.Perm (listSwap l i j) l := by
  unfold listSwap
  split
  · rename_i a b hi hj
    rw [List.get?_eq_getElem?] at hi hj
    exact set_set_perm l i j a b hi hj
  · exact List.Perm.refl l

lemma listSwap_length {α : Type} (l : List α) (i j : ℕ) :
    (listSwap l i j).length = l.length :=
  (listSwap_perm l i j).length_eq

lemma bubbleUpGo_perm : ∀ (fuel : ℕ) (l : List HeapEntry) (i : ℕ),
    List.Perm (bubbleUpGo fuel l i) l := by
  intro fuel
  induction fuel with
  | zero => intro l i; cases i <;> exact List.Perm.refl l
  | succ f ih =>
    intro l i
    cases i with
    | zero => exact List.Perm.refl l
    | succ m =>
      simp only [bubbleUpGo]
      split
      · exact (ih (listSwap l (m + 1) (m / 2)) (m / 2)).trans
          (listSwap_perm l (m + 1) (m / 2))
      · exact List.Perm.refl l

lemma bubbleUp_perm (l : List HeapEntry) (i : ℕ) : List.Perm (bubbleUp l i) l :=
  bubbleUpGo_perm i l i

lemma sinkDownGo_perm : ∀ (fuel : ℕ) (l : List HeapEntry) (i : ℕ),
    List.Perm (sinkDownGo fuel l i) l := by
  intro fuel
  induction fuel with
  | zero => intro l i; exact List.Perm.refl l
  | succ f ih =>
    intro l i
    simp only [sinkDownGo]
    split
    · exact (ih (listSwap l i (sinkLargest l i)) (sinkLargest l i)).trans
        (listSwap_perm l i (sinkLargest l i))
    · exact List.Perm.refl l

lemma sinkDown_perm (l : List HeapEntry) (i : ℕ) : List.Perm (sinkDown l i) l :=
  sinkDownGo_perm l.length l i

lemma push_perm (h : MaxHeap) (e : HeapEntry) :
    List.Perm (h.push e).entries (e :: h.entries) := by
  unfold MaxHeap.push
  exact (bubbleUp_perm (h.entries ++ [e]) h.entries.length).trans
    (List.perm_append_singleton e h.entries)

lemma pop_perm {h : MaxHeap} {top : HeapEntry} {h' : MaxHeap}
    (hp : h.pop = some (top, h')) : List.Perm h.entries (top :: h'.entries) := by
  unfold MaxHeap.pop at hp
  rcases hh : h.entries with _ | ⟨t, rest⟩
  · rw [hh] at hp; cases hp
  · rw [hh] at hp
    rcases rest with _ | ⟨b, bs⟩
    · simp only [Option.some.injEq, Prod.mk.injEq] at hp
      obtain ⟨rfl, rfl⟩ := hp
      exact List.Perm.refl _
    · simp only [Option.some.injEq, Prod.mk.injEq] at hp
      obtain ⟨rfl, rfl⟩ := hp
      have h1 : List.Perm (b :: bs)
          ((b :: bs).getLast (List.cons_ne_nil b bs) :: (b :: bs).dropLast) := by
        conv_lhs => rw [← List.dropLast_append_getLast (List.cons_ne_nil b bs)]
        exact List.perm_append_singleton _ _
      exact List.Perm.cons t (h1.trans (sinkDown_perm _ 0).symm)

end QT

namespace QT

/-! ### Per-cell options and outcome probabilities -/

lemma mul_foldl (l : List ℚ) : ∀ a : ℚ,
    l.foldl (fun p x => p * x) a = a * l.foldl (fun p x => p * x) 1 := by
  induction l with
  | nil => intro a; simp
  | cons x xs ih =>
    intro a
    simp only [List.foldl_cons]
    rw [ih (a * x), ih (1 * x)]
    ring

lemma probOfIndices_cons (o : List CellOption) (co : List (List CellOption))
    (i : ℕ) (v : List ℕ) :
    probOfIndices (o :: co) (i :: v) =
      (o.getD i dummyOption).probability * probOfIndices co v := by
  simp only [probOfIndices, List.zipWith_cons_cons, List.foldl_cons]
  rw [mul_foldl]
  ring

lemma probOfIndices_nil_left (v : List ℕ) : probOfIndices [] v = 1 := by
  simp [probOfIndices]

lemma probOfIndices_nil_right (co : List (List CellOption)) :
    probOfIndices co [] = 1 := by
  simp [probOfIndices]

lemma optionGetD_nonneg {o : List CellOption}
    (h : ∀ x ∈ o, 0 ≤ x.probability) (i : ℕ) :
    0 ≤ (o.getD i dummyOption).probability := by
  rcases lt_or_ge i o.length with hi | hi
  · rw [List.getD_eq_getElem?_getD, List.getElem?_eq_getElem hi]
    exact h _ (List.getElem_mem hi)
  · rw [List.getD_eq_getElem?_getD, List.getElem?_eq_none hi]
    norm_num [dummyOption]

lemma probOfIndices_nonneg : ∀ (co : List (List CellOption)) (v : List ℕ),
    (∀ o ∈ co, ∀ x ∈ o, 0 ≤ x.probability) → 0 ≤ probOfIndices co v := by
  intro co
  induction co with
  | nil => intro v _; rw [probOfIndices_nil_left]; norm_num
  | cons o co ih =>
    intro v h
    cases v with
    | nil => rw [probOfIndices_nil_right]; norm_num
    | cons i v =>
      rw [probOfIndices_cons]
      exact mul_nonneg (optionGetD_nonneg (h o (List.mem_cons_self o co)) i)
        (ih v fun o' ho' => h o' (List.mem_cons_of_mem _ ho'))

lemma sum_range_getD (o : List CellOption) :
    ∑ i in Finset.range o.length, (o.getD i dummyOption).probability =
      (o.map CellOption.probability).sum := by
  induction o with
  | nil => simp
  | cons x xs ih =>
    rw [List.length_cons, Finset.sum_range_succ']
    simp only [List.getD_cons_succ, List.getD_cons_zero]
    rw [ih, List.map_cons, List.sum_cons]
    ring

lemma rawCellOptions_nonneg {c : QutritState} :
    ∀ opt ∈ rawCellOptions c, 0 ≤ opt.probability := by
  intro opt h
  have heps := epsilon_pos
  unfold rawCellOptions at h
  rcases List.mem_append.mp h with h | h
  · rcases List.mem_append.mp h with h | h <;>
      (split_ifs at h with hc
       · rw [List.mem_singleton] at h
         subst h
         simp only
         linarith
       · cases h)
  · split_ifs at h with hc
    · rw [List.mem_singleton] at h
      subst h
      simp only
      linarith
    · cases h

lemma fallbackOptions_nonneg {c : QutritState} :
    ∀ opt ∈ fallbackOptions c, 0 ≤ opt.probability := by
  intro opt h
  unfold fallbackOptions at h
  split_ifs at h <;>
    (rw [List.mem_singleton] at h; subst h; norm_num)

lemma getCellOptions_nonneg {c : QutritState} :
    ∀ opt ∈ getCellOptions c, 0 ≤ opt.probability := by
  intro opt h
  unfold getCellOptions at h
  rw [List.mem_mergeSort] at h
  split_ifs at h with hie
  · exact fallbackOptions_nonneg opt h
  · exact rawCellOptions_nonneg opt h

lemma getCellOptions_sum_le {c : QutritState} (he : 0 ≤ c.probEmpty)
    (hx : 0 ≤ c.probX) (ho : 0 ≤ c.probO)
    (hs : c.probEmpty + c.probX + c.probO ≤ 1) :
    ((getCellOptions c).map CellOption.probability).sum ≤ 1 := by
  unfold getCellOptions
  rw [((List.mergeSort_perm _ _).map CellOption.probability).sum_eq]
  have heps := epsilon_pos
  split_ifs with hie
  · unfold fallbackOptions
    split_ifs <;> simp
  · unfold rawCellOptions
    simp only [List.map_append, List.sum_append]
    split_ifs <;>
      simp only [List.map_cons, List.map_nil, List.sum_cons, List.sum_nil] <;>
      linarith

end QT

namespace QT

/-! ### Sum of distinct outcome probabilities is dominated by the product
of per-cell option masses -/

/-- Select the tails of the index vectors whose first choice is `i`. -/
def headFilter (i : ℕ) : List ℕ → Option (List ℕ)
  | [] => none
  | j :: w => if j = i then some w else none

lemma sum_group (o : List CellOption) (co : List (List CellOption)) :
    ∀ vs : List (List ℕ), (∀ v ∈ vs, v ≠ []) →
      (vs.map (probOfIndices (o :: co))).sum =
        ∑ i in Finset.range o.length,
          (o.getD i dummyOption).probability *
            ((vs.filterMap (headFilter i)).map (probOfIndices co)).sum := by
  intro vs
  induction vs with
  | nil => simp
  | cons v vs ih =>
    intro hne
    rcases v with _ | ⟨j, w⟩
    · exact absurd rfl (hne [] (List.mem_cons_self _ _))
    · rw [List.map_cons, List.sum_cons, probOfIndices_cons,
        ih fun v hv => hne v (List.mem_cons_of_mem _ hv)]
      have hfm : ∀ i : ℕ, (((j :: w) :: vs).filterMap (headFilter i)) =
          (if j = i then w :: vs.filterMap (headFilter i)
           else vs.filterMap (headFilter i)) := by
        intro i
        rw [List.filterMap_cons]
        by_cases hj : j = i
        · rw [show headFilter i (j :: w) = some w from by simp [headFilter, hj],
            if_pos hj]
        · rw [show headFilter i (j :: w) = none from by simp [headFilter, hj],
            if_neg hj]
      have hres : ∀ i ∈ Finset.range o.length,
          (o.getD i dummyOption).probability *
            ((((j :: w) :: vs).filterMap (headFilter i)).map (probOfIndices co)).sum =
          (o.getD i dummyOption).probability *
            ((vs.filterMap (headFilter i)).map (probOfIndices co)).sum +
          (if j = i then (o.getD i dummyOption).probability * probOfIndices co w
           else 0) := by
        intro i _
        rw [hfm i]
        by_cases hj : j = i
        · rw [if_pos hj, if_pos hj, List.map_cons, List.sum_cons]
          ring
        · rw [if_neg hj, if_neg hj]
          ring
      rw [Finset.sum_congr rfl hres, Finset.sum_add_distrib, Finset.sum_ite_eq]
      by_cases hjlen : j ∈ Finset.range o.length
      · rw [if_pos hjlen]
        ring
      · rw [if_neg hjlen]
        have hz : (o.getD j dummyOption).probability = 0 := by
          rw [List.getD_eq_getElem?_getD, List.getElem?_eq_none (by
            rw [Finset.mem_range] at hjlen
            omega)]
          norm_num [dummyOption]
        rw [hz]
        ring

lemma headFilter_some {i : ℕ} {v w : List ℕ} (h : headFilter i v = some w) :
    v = i :: w := by
  cases v with
  | nil => cases h
  | cons j u =>
    simp only [headFilter] at h
    split_ifs at h with hj
    rw [hj, Option.some_injective _ h]

lemma headFilter_nodup {i : ℕ} {vs : List (List ℕ)} (h : vs.Nodup) :
    (vs.filterMap (headFilter i)).Nodup := by
  apply List.Nodup.filterMap ?_ h
  intro a a' b ha ha'
  rw [Option.mem_def] at ha ha'
  rw [headFilter_some ha, headFilter_some ha']

lemma headFilter_mem {i : ℕ} {vs : List (List ℕ)} {w : List ℕ}
    (h : w ∈ vs.filterMap (headFilter i)) : (i :: w) ∈ vs := by
  rcases List.mem_filterMap.mp h with ⟨v, hv, hfv⟩
  rw [← headFilter_some hfv]
  exact hv

lemma sum_probOfIndices_le :
    ∀ (co : List (List CellOption)) (vs : List (List ℕ)),
      (∀ o ∈ co, ∀ x ∈ o, 0 ≤ x.probability) → vs.Nodup →
      (∀ v ∈ vs, v.length = co.length) →
      (vs.map (probOfIndices co)).sum ≤
        (co.map fun opts => (opts.map CellOption.probability).sum).prod := by
  intro co
  induction co with
  | nil =>
    intro vs _ hnd hlen
    rcases vs with _ | ⟨v, vs'⟩
    · simp
    · have hv : v = [] :=
        List.eq_nil_of_length_eq_zero (by simpa using hlen v (List.mem_cons_self _ _))
      rcases vs' with _ | ⟨v2, vs''⟩
      · subst hv
        simp [probOfIndices_nil_left]
      · have hv2 : v2 = [] :=
          List.eq_nil_of_length_eq_zero (by simpa using hlen v2 (by simp))
        subst hv
        subst hv2
        rw [List.nodup_cons] at hnd
        exact absurd (List.mem_cons_self ([] : List ℕ) vs'') hnd.1
  | cons o co ih =>
    intro vs h hnd hlen
    have hne : ∀ v ∈ vs, v ≠ [] := by
      intro v hv hcon
      have := hlen v hv
      rw [hcon] at this
      simp at this
    rw [sum_group o co vs hne]
    have hrest : ∀ i : ℕ,
        ((vs.filterMap (headFilter i)).map (probOfIndices co)).sum ≤
          (co.map fun opts => (opts.map CellOption.probability).sum).prod := by
      intro i
      apply ih
      · intro o' ho'
        exact h o' (List.mem_cons_of_mem _ ho')
      · exact headFilter_nodup hnd
      · intro w hw
        have := hlen (i :: w) (headFilter_mem hw)
        simpa using this
    calc ∑ i in Finset.range o.length,
          (o.getD i dummyOption).probability *
            ((vs.filterMap (headFilter i)).map (probOfIndices co)).sum
        ≤ ∑ i in Finset.range o.length,
            (o.getD i dummyOption).probability *
              (co.map fun opts => (opts.map CellOption.probability).sum).prod := by
          apply Finset.sum_le_sum
          intro i _
          exact mul_le_mul_of_nonneg_left (hrest i)
            (optionGetD_nonneg (h o (List.mem_cons_self _ _)) i)
      _ = (∑ i in Finset.range o.length, (o.getD i dummyOption).probability) *
            (co.map fun opts => (opts.map CellOption.probability).sum).prod := by
          rw [← Finset.sum_mul]
      _ = ((o.map CellOption.probability).sum) *
            (co.map fun opts => (opts.map CellOption.probability).sum).prod := by
          rw [sum_range_getD]
      _ = ((o :: co).map fun opts => (opts.map CellOption.probability).sum).prod := by
          rw [List.map_cons, List.prod_cons]

lemma list_prod_le_one : ∀ {l : List ℚ}, (∀ x ∈ l, 0 ≤ x ∧ x ≤ 1) → l.prod ≤ 1 := by
  intro l
  induction l with
  | nil => intro _; simp
  | cons x xs ih =>
    intro h
    rw [List.prod_cons]
    obtain ⟨hx0, hx1⟩ := h x (List.mem_cons_self _ _)
    have hxs : xs.prod ≤ 1 := ih fun y hy => h y (List.mem_cons_of_mem _ hy)
    have hxsnn : 0 ≤ xs.prod :=
      List.prod_nonneg fun y hy => (h y (List.mem_cons_of_mem _ hy)).1
    nlinarith

end QT

namespace QT

/-! ### The best-first loop: well-formedness and key-distinctness -/

/-- Every heap entry is internally consistent: the board and probability
are the ones determined by its per-cell choice-rank vector. -/
def EntryWF (co : List (List CellOption)) (nc : ℕ) (e : HeapEntry) : Prop :=
  e.indices.length = nc ∧ e.board = boardOfIndices co e.indices ∧
    e.probability = probOfIndices co e.indices

lemma ps_visited_subset (co : List (List CellOption)) (cur : HeapEntry) :
    ∀ (cells : List ℕ) (heap : MaxHeap) (visited : List String),
      visited ⊆ (pushSuccessors co cur cells heap visited).2 := by
  intro cells
  induction cells with
  | nil => intro heap visited; exact fun x hx => hx
  | cons ci rest ih =>
    intro heap visited
    simp only [pushSuccessors]
    split_ifs with h1 h2
    · exact ih heap visited
    · exact fun x hx => ih _ _ (List.mem_cons_of_mem _ hx)
    · exact ih heap visited

lemma ps_mem_entries (co : List (List CellOption)) (cur : HeapEntry) :
    ∀ (cells : List ℕ) (heap : MaxHeap) (visited : List String),
      ∀ e ∈ (pushSuccessors co cur cells heap visited).1.entries,
        e ∈ heap.entries ∨ outcomeKey e.board ∉ visited := by
  intro cells
  induction cells with
  | nil => intro heap visited e he; exact Or.inl he
  | cons ci rest ih =>
    intro heap visited e he
    simp only [pushSuccessors] at he
    split_ifs at he with h1 h2
    · exact ih heap visited e he
    · rcases ih _ _ e he with hmem | hfresh
      · rcases List.mem_cons.mp ((push_perm heap _).mem_iff.mp hmem) with heq | hmem'
        · subst heq
          exact Or.inr h2
        · exact Or.inl hmem'
      · exact Or.inr fun hv => hfresh (List.mem_cons_of_mem _ hv)
    · exact ih heap visited e he

lemma ps_wf (co : List (List CellOption)) (cur : HeapEntry) (nc : ℕ)
    (hcur : cur.indices.length = nc) :
    ∀ (cells : List ℕ) (heap : MaxHeap) (visited : List String),
      (∀ e ∈ heap.entries, EntryWF co nc e) →
      ((heap.entries.map fun e => outcomeKey e.board).Nodup) →
      (∀ e ∈ heap.entries, outcomeKey e.board ∈ visited) →
      (∀ e ∈ (pushSuccessors co cur cells heap visited).1.entries, EntryWF co nc e) ∧
      (((pushSuccessors co cur cells heap visited).1.entries.map
        fun e => outcomeKey e.board).Nodup) ∧
      (∀ e ∈ (pushSuccessors co cur cells heap visited).1.entries,
        outcomeKey e.board ∈ (pushSuccessors co cur cells heap visited).2) := by
  intro cells
  induction cells with
  | nil => intro heap visited hWF hND hSub; exact ⟨hWF, hND, hSub⟩
  | cons ci rest ih =>
    intro heap visited hWF hND hSub
    simp only [pushSuccessors]
    split_ifs with h1 h2
    · exact ih heap visited hWF hND hSub
    · -- a fresh successor is pushed
      apply ih
      · intro e he
        rcases List.mem_cons.mp ((push_perm heap _).mem_iff.mp he) with heq | hmem
        · subst heq
          refine ⟨?_, rfl, rfl⟩
          simp only [List.length_set]
          exact hcur
        · exact hWF e hmem
      · have hpm := (push_perm heap
          { board := boardOfIndices co (cur.indices.set ci (cur.indices.getD ci 0 + 1))
            probability := probOfIndices co (cur.indices.set ci (cur.indices.getD ci 0 + 1))
            indices := cur.indices.set ci (cur.indices.getD ci 0 + 1) }).map
          fun e => outcomeKey e.board
        rw [List.Perm.nodup_iff hpm]
        rw [List.map_cons, List.nodup_cons]
        refine ⟨?_, hND⟩
        intro hcon
        rcases List.mem_map.mp hcon with ⟨e, he, hkey⟩
        exact h2 (by rw [← hkey]; exact hSub e he)
      · intro e he
        rcases List.mem_cons.mp ((push_perm heap _).mem_iff.mp he) with heq | hmem
        · subst heq
          exact List.mem_cons_self _ _
        · exact List.mem_cons_of_mem _ (hSub e hmem)
    · exact ih heap visited hWF hND hSub

lemma topLoop_zero (co : List (List CellOption)) (sz nc : ℕ) (heap : MaxHeap)
    (visited : List String) : topLoop co sz nc heap visited 0 = [] := rfl

lemma topLoop_succ_none (co : List (List CellOption)) (sz nc : ℕ) {heap : MaxHeap}
    (visited : List String) (f : ℕ) (hp : heap.pop = none) :
    topLoop co sz nc heap visited (f + 1) = [] := by
  simp only [topLoop, hp]

lemma topLoop_succ_neg (co : List (List CellOption)) (sz nc : ℕ) {heap : MaxHeap}
    (visited : List String) (f : ℕ) {cur : HeapEntry} {heap' : MaxHeap}
    (hp : heap.pop = some (cur, heap')) (hneg : cur.probability < NEGLIGIBLE) :
    topLoop co sz nc heap visited (f + 1) = [] := by
  simp only [topLoop, hp]
  rw [if_pos hneg]

lemma topLoop_succ_emit (co : List (List CellOption)) (sz nc : ℕ) {heap : MaxHeap}
    (visited : List String) (f : ℕ) {cur : HeapEntry} {heap' : MaxHeap}
    (hp : heap.pop = some (cur, heap')) (hneg : ¬ cur.probability < NEGLIGIBLE) :
    topLoop co sz nc heap visited (f + 1) =
      { board := cur.board, probability := cur.probability,
        winner := detectWinner cur.board sz } ::
        topLoop co sz nc (pushSuccessors co cur (List.range nc) heap' visited).1
          (pushSuccessors co cur (List.range nc) heap' visited).2 f := by
  simp only [topLoop, hp]
  rw [if_neg hneg]

end QT

namespace QT

lemma topLoop_length_le (co : List (List CellOption)) (sz nc : ℕ) :
    ∀ (fuel : ℕ) (heap : MaxHeap) (visited : List String),
      (topLoop co sz nc heap visited fuel).length ≤ fuel := by
  intro fuel
  induction fuel with
  | zero => intro heap visited; simp [topLoop_zero]
  | succ f ih =>
    intro heap visited
    rcases hp : heap.pop with _ | ⟨cur, heap'⟩
    · rw [topLoop_succ_none co sz nc visited f hp]
      simp
    · by_cases hneg : cur.probability < NEGLIGIBLE
      · rw [topLoop_succ_neg co sz nc visited f hp hneg]
        simp
      · rw [topLoop_succ_emit co sz nc visited f hp hneg]
        simp only [List.length_cons]
        exact Nat.succ_le_succ (ih _ _)

/-- No outcome emitted by the loop carries a key that is already visited
while absent from the heap. -/
lemma topLoop_key_ne (co : List (List CellOption)) (sz nc : ℕ) :
    ∀ (fuel : ℕ) (heap : MaxHeap) (visited : List String) (k : String),
      k ∈ visited →
      (∀ e ∈ heap.entries, outcomeKey e.board ≠ k) →
      ∀ o ∈ topLoop co sz nc heap visited fuel, outcomeKey o.board ≠ k := by
  intro fuel
  induction fuel with
  | zero => intro heap visited k _ _ o ho; simp [topLoop_zero] at ho
  | succ f ih =>
    intro heap visited k hkv hkh o ho
    rcases hp : heap.pop with _ | ⟨cur, heap'⟩
    · rw [topLoop_succ_none co sz nc visited f hp] at ho
      simp at ho
    · by_cases hneg : cur.probability < NEGLIGIBLE
      · rw [topLoop_succ_neg co sz nc visited f hp hneg] at ho
        simp at ho
      · rw [topLoop_succ_emit co sz nc visited f hp hneg] at ho
        rcases List.mem_cons.mp ho with rfl | ho'
        · exact hkh cur ((pop_perm hp).symm.subset (List.mem_cons_self _ _))
        · refine ih _ _ k (ps_visited_subset co cur (List.range nc) heap' visited hkv) ?_ o ho'
          intro e he
          rcases ps_mem_entries co cur (List.range nc) heap' visited e he with hmem | hfresh
          · exact hkh e ((pop_perm hp).symm.subset (List.mem_cons_of_mem _ hmem))
          · intro hcon
            rw [hcon] at hfresh
            exact hfresh hkv

/-- Master invariant of the loop: the emitted outcomes are exactly the
boards/probabilities determined by a list of per-cell choice vectors of
the right length, and their outcome keys are pairwise distinct. -/
lemma topLoop_master (co : List (List CellOption)) (sz nc : ℕ) :
    ∀ (fuel : ℕ) (heap : MaxHeap) (visited : List String),
      (∀ e ∈ heap.entries, EntryWF co nc e) →
      ((heap.entries.map fun e => outcomeKey e.board).Nodup) →
      (∀ e ∈ heap.entries, outcomeKey e.board ∈ visited) →
      ∃ vs : List (List ℕ),
        (topLoop co sz nc heap visited fuel).map GameOutcome.board =
          vs.map (boardOfIndices co) ∧
        (topLoop co sz nc heap visited fuel).map GameOutcome.probability =
          vs.map (probOfIndices co) ∧
        (∀ v ∈ vs, v.length = nc) ∧
        (vs.map fun v => outcomeKey (boardOfIndices co v)).Nodup := by
  intro fuel
  induction fuel with
  | zero =>
    intro heap visited _ _ _
    exact ⟨[], by simp [topLoop_zero], by simp [topLoop_zero], by simp, by simp⟩
  | succ f ih =>
    intro heap visited hWF hND hSub
    rcases hp : heap.pop with _ | ⟨cur, heap'⟩
    · refine ⟨[], ?_, ?_, by simp, by simp⟩ <;>
        rw [topLoop_succ_none co sz nc visited f hp] <;> simp
    · by_cases hneg : cur.probability < NEGLIGIBLE
      · refine ⟨[], ?_, ?_, by simp, by simp⟩ <;>
          rw [topLoop_succ_neg co sz nc visited f hp hneg] <;> simp
      · have hcur : cur ∈ heap.entries :=
          (pop_perm hp).symm.subset (List.mem_cons_self _ _)
        obtain ⟨hcurLen, hcurBoard, hcurProb⟩ := hWF cur hcur
        have hkey : outcomeKey cur.board ∈ visited := hSub cur hcur
        have hsub' : ∀ e ∈ heap'.entries, e ∈ heap.entries := fun e he =>
          (pop_perm hp).symm.subset (List.mem_cons_of_mem _ he)
        have hndcons :
            ((cur :: heap'.entries).map fun e => outcomeKey e.board).Nodup :=
          (List.Perm.nodup_iff ((pop_perm hp).map fun e => outcomeKey e.board)).mp hND
        rw [List.map_cons, List.nodup_cons] at hndcons
        obtain ⟨hfreshcur, hND'⟩ := hndcons
        obtain ⟨hWF'', hND'', hSub''⟩ :=
          ps_wf co cur nc hcurLen (List.range nc) heap' visited
            (fun e he => hWF e (hsub' e he)) hND' (fun e he => hSub e (hsub' e he))
        obtain ⟨vs, hb, hpr, hlen, hnd⟩ := ih _ _ hWF'' hND'' hSub''
        refine ⟨cur.indices :: vs, ?_, ?_, ?_, ?_⟩
        · rw [topLoop_succ_emit co sz nc visited f hp hneg]
          simp only [List.map_cons]
          rw [hb, hcurBoard]
        · rw [topLoop_succ_emit co sz nc visited f hp hneg]
          simp only [List.map_cons]
          rw [hpr, hcurProb]
        · intro v hv
          rcases List.mem_cons.mp hv with rfl | hv'
          · exact hcurLen
          · exact hlen v hv'
        · rw [List.map_cons, List.nodup_cons]
          refine ⟨?_, hnd⟩
          intro hcon
          rcases List.mem_map.mp hcon with ⟨v, hv, hkeq⟩
          -- v is one of the emitted vectors of the recursive call; its key
          -- equals cur's key, contradicting key freshness
          have hvsmem : boardOfIndices co v ∈
              (topLoop co sz nc (pushSuccessors co cur (List.range nc) heap' visited).1
                (pushSuccessors co cur (List.range nc) heap' visited).2 f).map
                GameOutcome.board := by
            rw [hb]
            exact List.mem_map.mpr ⟨v, hv, rfl⟩
          rcases List.mem_map.mp hvsmem with ⟨o, ho, hob⟩
          have hne := topLoop_key_ne co sz nc f
            (pushSuccessors co cur (List.range nc) heap' visited).1
            (pushSuccessors co cur (List.range nc) heap' visited).2
            (outcomeKey cur.board)
            (ps_visited_subset co cur (List.range nc) heap' visited hkey)
            ?_ o ho
          · apply hne
            rw [hob, hkeq, hcurBoard]
          · intro e he
            rcases ps_mem_entries co cur (List.range nc) heap' visited e he with
              hmem | hfresh
            · intro hcon2
              exact hfreshcur (by rw [← hcon2]; exact List.mem_map.mpr ⟨e, hmem, rfl⟩)
            · intro hcon2
              rw [hcon2] at hfresh
              exact hfresh hkey

end QT

namespace QT

/-! ### Top-outcome claims (C1, C10, C2) -/

lemma calculateTopOutcomes_eq (game : GameState) (maxOutcomes : ℕ) :
    calculateTopOutcomes game maxOutcomes =
      (topLoop (game.board.map getCellOptions) game.size game.board.length
        (MaxHeap.push ⟨[]⟩
          { board := boardOfIndices (game.board.map getCellOptions)
              (List.replicate game.board.length 0)
            probability := probOfIndices (game.board.map getCellOptions)
              (List.replicate game.board.length 0)
            indices := List.replicate game.board.length 0 })
        [outcomeKey (boardOfIndices (game.board.map getCellOptions)
          (List.replicate game.board.length 0))]
        maxOutcomes).mergeSort
        fun a b => decide (b.probability ≤ a.probability) := rfl

lemma push_empty_entries (e : HeapEntry) : (MaxHeap.push ⟨[]⟩ e).entries = [e] := rfl

/-- The loop inside `calculateTopOutcomes`, through the master invariant. -/
lemma calculateTopOutcomes_vectors (game : GameState) (K : ℕ) :
    ∃ vs : List (List ℕ),
      List.Perm ((calculateTopOutcomes game K).map GameOutcome.board)
        (vs.map (boardOfIndices (game.board.map getCellOptions))) ∧
      List.Perm ((calculateTopOutcomes game K).map GameOutcome.probability)
        (vs.map (probOfIndices (game.board.map getCellOptions))) ∧
      (∀ v ∈ vs, v.length = game.board.length) ∧
      (vs.map fun v =>
        outcomeKey (boardOfIndices (game.board.map getCellOptions) v)).Nodup := by
  obtain ⟨vs, hb, hpr, hlen, hnd⟩ :=
    topLoop_master (game.board.map getCellOptions) game.size game.board.length K
      (MaxHeap.push ⟨[]⟩
        { board := boardOfIndices (game.board.map getCellOptions)
            (List.replicate game.board.length 0)
          probability := probOfIndices (game.board.map getCellOptions)
            (List.replicate game.board.length 0)
          indices := List.replicate game.board.length 0 })
      [outcomeKey (boardOfIndices (game.board.map getCellOptions)
        (List.replicate game.board.length 0))]
      (by
        intro e he
        rw [push_empty_entries, List.mem_singleton] at he
        subst he
        exact ⟨List.length_replicate _ _, rfl, rfl⟩)
      (by rw [push_empty_entries]; simp)
      (by
        intro e he
        rw [push_empty_entries, List.mem_singleton] at he
        subst he
        simp)
  refine ⟨vs, ?_, ?_, hlen, hnd⟩
  · rw [calculateTopOutcomes_eq]
    exact ((List.mergeSort_perm _ _).map GameOutcome.board).trans (by rw [hb])
  · rw [calculateTopOutcomes_eq]
    exact ((List.mergeSort_perm _ _).map GameOutcome.probability).trans (by rw [hpr])

/-- C1: for every session and every `K`, `calculateTopOutcomes` returns at
most `K` outcomes, ordered by probability in non-increasing order (the
final comparator sort guarantees the order). -/
theorem calculateTopOutcomes_length_sorted (game : GameState) (K : ℕ) :
    (calculateTopOutcomes game K).length ≤ K ∧
      (calculateTopOutcomes game K).Pairwise
        fun a b => b.probability ≤ a.probability := by
  constructor
  · rw [calculateTopOutcomes_eq, (List.mergeSort_perm _ _).length_eq]
    exact topLoop_length_le _ _ _ _ _ _
  · rw [calculateTopOutcomes_eq]
    have hsorted := @List.sorted_mergeSort GameOutcome
      (fun a b => decide (b.probability ≤ a.probability))
      (fun a b c h₁ h₂ => by
        simp only [decide_eq_true_eq] at h₁ h₂ ⊢
        exact le_trans h₂ h₁)
      (fun a b => by
        simp only [Bool.or_eq_true, decide_eq_true_eq]
        exact le_total b.probability a.probability)
      (topLoop (game.board.map getCellOptions) game.size game.board.length
        (MaxHeap.push ⟨[]⟩
          { board := boardOfIndices (game.board.map getCellOptions)
              (List.replicate game.board.length 0)
            probability := probOfIndices (game.board.map getCellOptions)
              (List.replicate game.board.length 0)
            indices := List.replicate game.board.length 0 })
        [outcomeKey (boardOfIndices (game.board.map getCellOptions)
          (List.replicate game.board.length 0))]
        K)
    exact hsorted.imp fun h => by simpa using h

/-- C10: no classical board appears twice in the result list of
`calculateTopOutcomes` (the `visited` key set deduplicates outcomes). -/
theorem calculateTopOutcomes_boards_distinct (game : GameState) (K : ℕ) :
    ((calculateTopOutcomes game K).map GameOutcome.board).Pairwise
      fun b1 b2 => b1 ≠ b2 := by
  obtain ⟨vs, hb, hpr, hlen, hnd⟩ := calculateTopOutcomes_vectors game K
  have hkeys : ((vs.map (boardOfIndices (game.board.map getCellOptions))).map
      outcomeKey).Nodup := by
    rw [List.map_map]
    exact hnd
  have hboards : (vs.map (boardOfIndices (game.board.map getCellOptions))).Nodup :=
    List.Nodup.of_map outcomeKey hkeys
  exact (List.Perm.nodup_iff hb).mpr hboards

/-- C2 (amended): with non-negative cell components summing to at most 1,
the probabilities of the outcomes returned by `calculateTopOutcomes` sum
to at most 1.  (The sum can genuinely fall short of `1 - ε` on a fully
committed board because per-cell options with probability ≤ ε are
discarded; see the counterexample.) -/
theorem calculateTopOutcomes_sum_le_one (game : GameState) (K : ℕ)
    (hwf : ∀ c ∈ game.board, 0 ≤ c.probEmpty ∧ 0 ≤ c.probX ∧ 0 ≤ c.probO ∧
      c.probEmpty + c.probX + c.probO ≤ 1) :
    ((calculateTopOutcomes game K).map GameOutcome.probability).sum ≤ 1 := by
  obtain ⟨vs, hb, hpr, hlen, hnd⟩ := calculateTopOutcomes_vectors game K
  rw [hpr.sum_eq]
  have hvsnd : vs.Nodup :=
    List.Nodup.of_map (fun v =>
      outcomeKey (boardOfIndices (game.board.map getCellOptions) v)) hnd
  have hnn : ∀ o ∈ game.board.map getCellOptions, ∀ x ∈ o, 0 ≤ x.probability := by
    intro o ho x hx
    rcases List.mem_map.mp ho with ⟨cell, hcell, rfl⟩
    exact getCellOptions_nonneg x hx
  have hlen' : ∀ v ∈ vs, v.length = (game.board.map getCellOptions).length := by
    intro v hv
    rw [List.length_map]
    exact hlen v hv
  refine le_trans (sum_probOfIndices_le (game.board.map getCellOptions) vs hnn
    hvsnd hlen') (list_prod_le_one ?_)
  intro x hx
  rcases List.mem_map.mp hx with ⟨opts, hopts, rfl⟩
  rcases List.mem_map.mp hopts with ⟨cell, hcell, rfl⟩
  obtain ⟨he, hx2, ho2, hs⟩ := hwf cell hcell
  constructor
  · exact List.sum_nonneg (by
      intro y hy
      rcases List.mem_map.mp hy with ⟨opt, hopt, rfl⟩
      exact getCellOptions_nonneg opt hopt)
  · exact getCellOptions_sum_le he hx2 ho2 hs

end QT

namespace QT

/-- A fully committed 2×2 session: every cell keeps a residual empty mass
of exactly ε and opponent mass 0, so each cell's only significant option
is `X` with probability `0.999`. -/
def c2Session : GameState :=
  { id := "g"
    board := List.replicate 4 { probEmpty := 1/1000, probO := 0, probX := 999/1000 }
    size := 2
    currentPlayer := Player.X
    movesPlayed := 4
    totalMoves := 4
    gamePhase := GamePhase.ready_to_collapse
    moves := []
    gameMode := GameMode.pvp
    aiPlayer := none }

unseal List.merge List.mergeSort Rat.add Rat.mul Rat.sub Rat.inv Rat.ofScientific in
/-- C2 counterexample: on this fully committed board (each cell a valid
distribution with `probEmpty ≤ ε`), the probabilities of *all* outcomes
returned with `K = 3^cells` sum to `0.999⁴ ≈ 0.996`, outside `1 ± ε`:
the enumerator drops per-cell options whose probability is ≤ ε. -/
theorem c2_counterexample :
    (∀ c ∈ c2Session.board, c.probEmpty ≤ EPSILON ∧ 0 ≤ c.probEmpty ∧
      0 ≤ c.probX ∧ 0 ≤ c.probO ∧ c.probEmpty + c.probX + c.probO = 1) ∧
      ((calculateTopOutcomes c2Session (3 ^ 4)).map GameOutcome.probability).sum <
        1 - EPSILON := by
  constructor
  · decide
  · decide

unseal List.merge List.mergeSort Rat.add Rat.mul Rat.sub Rat.inv Rat.ofScientific in
/-- Closed witness for `calculateTopOutcomes_sum_le_one`. -/
theorem calculateTopOutcomes_sum_le_one_witness :
    (∀ c ∈ (createGame 2 GameMode.pvp none).board,
      0 ≤ c.probEmpty ∧ 0 ≤ c.probX ∧ 0 ≤ c.probO ∧
        c.probEmpty + c.probX + c.probO ≤ 1) ∧
      ((calculateTopOutcomes (createGame 2 GameMode.pvp none) 5).map
        GameOutcome.probability).sum ≤ 1 :=
  ⟨by decide, calculateTopOutcomes_sum_le_one (createGame 2 GameMode.pvp none) 5
    (by decide)⟩

end QT
